import Mathlib

/-!
Verification of the field-level encryption engine of the HackItDatabaseAPI
repository (package `encryption`): the AES-256-CFB string codec
(`encryptAES256` / `decryptAES256`), the SHA-256 fingerprint machinery, the
dynamic-document operations (`EncryptFieldsByConfig`, `DecryptFieldsByConfig`,
`ProcessFieldsForHash`) and the typed-entity traversal (`EncryptStructFields`).

Modelling conventions:
- Go strings and `[]byte` are byte lists (`List Nat`, every element < 256).
  `ascii` converts an ASCII Lean string literal to its byte list.
- The AES-256 block-encryption primitive obtained from `aes.NewCipher(key)`
  (Go standard library, not part of this repository) is an abstract parameter
  `E : List Nat → List Nat`; CFB mode only ever uses the forward direction of
  the block cipher, exactly as `cipher.NewCFBEncrypter`/`NewCFBDecrypter` do.
  `BlockWF E` records that a block cipher maps any register to 16 bytes.
  The process key is `sha512` of the `DATABASE_ENCRYPTION` passphrase
  truncated to 32 bytes (`initKey`), so `aes.NewCipher` never fails.
- The stream of random IVs drawn from `crypto/rand` is a parameter
  `ivs : Nat → List Nat` together with a counter threaded through the
  traversals (one fresh IV is consumed per successful string encryption).
- `map[string]interface{}` documents are association lists with byte-list
  keys; Go's unspecified map iteration order is modelled by iterating over
  the list of keys present when the loop starts, skipping keys that have
  been deleted by the time they are visited (Go guarantees such keys are
  not produced by `range`); the only keys the loops ever add end in
  `_hash` and are skipped when visited, so the modelled order is faithful.
- A Go runtime panic (slice bound violation in `decryptAES256`) is a
  distinguished outcome (`DecOut.panic`), not an error value.
-/

/-- Bytes of an ASCII string literal (all characters below 128). -/
def ascii (s : String) : List Nat :=
  s.data.map Char.toNat

/-- Big-endian bytes of `x`, exactly `n` bytes (most significant first). -/
def toBytesBE : Nat → Nat → List Nat
  | 0, _ => []
  | n + 1, x => toBytesBE n (x / 256) ++ [x % 256]

theorem toBytesBE_length (n x : Nat) : (toBytesBE n x).length = n := by
  induction n generalizing x with
  | zero => rfl
  | succ n ih => simp [toBytesBE, ih]

theorem toBytesBE_lt (n x : Nat) : ∀ b ∈ toBytesBE n x, b < 256 := by
  induction n generalizing x with
  | zero => simp [toBytesBE]
  | succ n ih =>
    intro b hb
    simp only [toBytesBE, List.mem_append, List.mem_singleton] at hb
    rcases hb with h | h
    · exact ih _ b h
    · omega

/-- Big-endian word value of a byte list. -/
def beWord (bs : List Nat) : Nat :=
  bs.foldl (fun a b => a * 256 + b) 0

/-- Fuel-driven worker for `chunks` (structural, so the kernel can reduce
it; the fuel is always initialised to the list length). -/
def chunksGo (n : Nat) : Nat → List α → List (List α)
  | 0, _ => []
  | _, [] => []
  | fuel + 1, x :: xs => (x :: xs).take n :: chunksGo n fuel (xs.drop (n - 1))

/-- Split a list into chunks of `n` elements (`n > 0`); the final chunk may
be shorter. -/
def chunks (n : Nat) (l : List α) : List (List α) :=
  chunksGo n l.length l

/-! ### SHA-2 (FIPS 180-4), generic over the word size

The round constants are the fractional parts of the cube roots of the first
64 (resp. 80) primes and the initial state the fractional parts of the square
roots of the first 8 primes, computed here by integer root extraction rather
than transcribed. -/

/-- Trial-division primality test. -/
def isPrimeNat (n : Nat) : Bool :=
  decide (2 ≤ n) && (((List.range n).drop 2).all fun d => d * d > n || n % d != 0)

/-- The first `k` primes (valid for `k ≤ 95`). -/
def firstPrimes (k : Nat) : List Nat :=
  ((List.range 500).filter isPrimeNat).take k

/-- Bisection step for the integer cube root. -/
def cbrtAux (n : Nat) : Nat → Nat → Nat → Nat
  | 0, lo, _ => lo
  | fuel + 1, lo, hi =>
    if hi ≤ lo + 1 then lo
    else
      let m := (lo + hi) / 2
      if m * m * m ≤ n then cbrtAux n fuel m hi else cbrtAux n fuel lo m

/-- Integer cube root, `⌊n^(1/3)⌋` (for `n < 2^340`). -/
def cbrtFloor (n : Nat) : Nat :=
  cbrtAux n 340 0 (n + 1)

/-- Bisection step for the integer square root. -/
def sqrtAux (n : Nat) : Nat → Nat → Nat → Nat
  | 0, lo, _ => lo
  | fuel + 1, lo, hi =>
    if hi ≤ lo + 1 then lo
    else
      let m := (lo + hi) / 2
      if m * m ≤ n then sqrtAux n fuel m hi else sqrtAux n fuel lo m

/-- Integer square root (for `n < 2^340`). -/
def sqrtFloor (n : Nat) : Nat :=
  sqrtAux n 340 0 (n + 1)

/-- Parameters distinguishing SHA-256 from SHA-512: word size in bits,
round count, byte width of the trailing length field, and the four
rotation/shift triples. -/
structure ShaP where
  wbits : Nat
  rounds : Nat
  lenBytes : Nat
  bs0 : Nat × Nat × Nat
  bs1 : Nat × Nat × Nat
  ss0 : Nat × Nat × Nat
  ss1 : Nat × Nat × Nat

def sha256P : ShaP :=
  ⟨32, 64, 8, (2, 13, 22), (6, 11, 25), (7, 18, 3), (17, 19, 10)⟩

def sha512P : ShaP :=
  ⟨64, 80, 16, (28, 34, 39), (14, 18, 41), (1, 8, 7), (19, 61, 6)⟩

/-- Right rotation of a `w`-bit word. -/
def rotr (w n x : Nat) : Nat :=
  (x >>> n) + (x % 2 ^ n) * 2 ^ (w - n)

/-- `Σ0`/`Σ1`/`σ0` big functions: xor of two rotations and a rotation. -/
def bigSigma (w : Nat) (t : Nat × Nat × Nat) (x : Nat) : Nat :=
  rotr w t.1 x ^^^ rotr w t.2.1 x ^^^ rotr w t.2.2 x

/-- `σ0`/`σ1` small functions: xor of two rotations and a plain shift. -/
def smallSigma (w : Nat) (t : Nat × Nat × Nat) (x : Nat) : Nat :=
  rotr w t.1 x ^^^ rotr w t.2.1 x ^^^ (x >>> t.2.2)

/-- Round constants: fractional cube roots of the first `rounds` primes. -/
def shaK (P : ShaP) : List Nat :=
  (firstPrimes P.rounds).map fun p => cbrtFloor (p * 2 ^ (3 * P.wbits)) % 2 ^ P.wbits

/-- Initial hash state: fractional square roots of the first 8 primes. -/
def shaH0 (P : ShaP) : List Nat :=
  (firstPrimes 8).map fun p => sqrtFloor (p * 2 ^ (2 * P.wbits)) % 2 ^ P.wbits

/-- The eight-word working state of the compression function. -/
structure Sha8 where
  a : Nat
  b : Nat
  c : Nat
  d : Nat
  e : Nat
  f : Nat
  g : Nat
  h : Nat

/-- Message padding: `0x80`, zeros, then the bit length big-endian. -/
def shaPad (P : ShaP) (m : List Nat) : List Nat :=
  let bb := 16 * (P.wbits / 8)
  let pad := (bb - (m.length + P.lenBytes + 1) % bb) % bb
  m ++ [128] ++ List.replicate pad 0 ++ toBytesBE P.lenBytes (8 * m.length)

/-- Extend the 16 block words to the full message schedule. -/
def shaSched (P : ShaP) : List Nat → Nat → List Nat
  | ws, 0 => ws
  | ws, k + 1 =>
    let n := ws.length
    let w := (smallSigma P.wbits P.ss1 (ws.getD (n - 2) 0) + ws.getD (n - 7) 0 +
              smallSigma P.wbits P.ss0 (ws.getD (n - 15) 0) + ws.getD (n - 16) 0)
             % 2 ^ P.wbits
    shaSched P (ws ++ [w]) k

/-- One round of the compression function (`kw` = round constant + word). -/
def shaRound (P : ShaP) (s : Sha8) (kw : Nat × Nat) : Sha8 :=
  let M := 2 ^ P.wbits
  let ch := (s.e &&& s.f) ^^^ ((M - 1) ^^^ s.e) &&& s.g
  let maj := (s.a &&& s.b) ^^^ (s.a &&& s.c) ^^^ (s.b &&& s.c)
  let t1 := (s.h + bigSigma P.wbits P.bs1 s.e + ch + kw.1 + kw.2) % M
  let t2 := (bigSigma P.wbits P.bs0 s.a + maj) % M
  ⟨(t1 + t2) % M, s.a, s.b, s.c, (s.d + t1) % M, s.e, s.f, s.g⟩

/-- Process one 16-word block from state `hs` (list of 8 chaining words). -/
def shaBlock (P : ShaP) (hs : List Nat) (ws16 : List Nat) : List Nat :=
  let M := 2 ^ P.wbits
  let ws := shaSched P ws16 (P.rounds - 16)
  let s0 : Sha8 := ⟨hs.getD 0 0, hs.getD 1 0, hs.getD 2 0, hs.getD 3 0,
                    hs.getD 4 0, hs.getD 5 0, hs.getD 6 0, hs.getD 7 0⟩
  let s := ((shaK P).zip ws).foldl (shaRound P) s0
  [(hs.getD 0 0 + s.a) % M, (hs.getD 1 0 + s.b) % M, (hs.getD 2 0 + s.c) % M,
   (hs.getD 3 0 + s.d) % M, (hs.getD 4 0 + s.e) % M, (hs.getD 5 0 + s.f) % M,
   (hs.getD 6 0 + s.g) % M, (hs.getD 7 0 + s.h) % M]

/-- Full SHA-2 digest of a byte message, as bytes. -/
def shaDigest (P : ShaP) (m : List Nat) : List Nat :=
  let wB := P.wbits / 8
  let blocks := chunks (16 * wB) (shaPad P m)
  let hs := blocks.foldl (fun hs blk => shaBlock P hs ((chunks wB blk).map beWord))
                         (shaH0 P)
  (hs.map (toBytesBE wB)).flatten

/-- `crypto/sha256.Sum256`. -/
def sha256 (m : List Nat) : List Nat := shaDigest sha256P m

/-- `crypto/sha512.Sum512`. -/
def sha512 (m : List Nat) : List Nat := shaDigest sha512P m

/-- Lowercase hex digit characters. -/
def hexDigit (n : Nat) : Nat :=
  (ascii "0123456789abcdef").getD n 48

/-- `hex.EncodeToString`: lowercase hex of a byte list. -/
def hexEncode (bs : List Nat) : List Nat :=
  bs.flatMap fun b => [hexDigit (b / 16), hexDigit (b % 16)]

/-- The fingerprint written beside encrypted dynamic fields:
lowercase hex of the SHA-256 digest. -/
def sha256hex (s : List Nat) : List Nat :=
  hexEncode (sha256 s)

/-- The `init` function of the `encryption` package: the process key is the
SHA-512 digest of the `DATABASE_ENCRYPTION` environment value truncated to
32 bytes.  There is no error path: the function is total in the passphrase,
including the absent/empty case (`os.Getenv` returns `""` then). -/
def initKey (passphrase : List Nat) : List Nat :=
  (sha512 passphrase).take 32

/-! ### Standard base64 (`encoding/base64.StdEncoding`)

Encoding with padding, exactly as `EncodeToString`.  Decoding models
`DecodeString`: the input length must be a multiple of four, characters must
come from the standard alphabet, `=` may appear only as final-group padding;
the error value stands in for Go's `CorruptInputError` (whose message text
is never inspected by this repository).  Go's decoder also strips `\r`/`\n`,
which never occur in this repository's inputs and are not modelled. -/

def b64Alphabet : List Nat :=
  ascii "ABCDEFGHIJKLMNOPQRSTUVWXYZabcdefghijklmnopqrstuvwxyz0123456789+/"

def b64Char (i : Nat) : Nat :=
  b64Alphabet.getD i 65

def b64Index (c : Nat) : Option Nat :=
  b64Alphabet.indexOf? c

/-- The `=` padding character. -/
def eqPad : Nat := 61

def b64CorruptErr : List Nat := ascii "illegal base64 data at input byte"

def base64Encode : List Nat → List Nat
  | [] => []
  | [a] => [b64Char (a / 4), b64Char (a % 4 * 16), eqPad, eqPad]
  | [a, b] => [b64Char (a / 4), b64Char (a % 4 * 16 + b / 16), b64Char (b % 16 * 4), eqPad]
  | a :: b :: c :: rest =>
    b64Char (a / 4) :: b64Char (a % 4 * 16 + b / 16) ::
      b64Char (b % 16 * 4 + c / 64) :: b64Char (c % 64) :: base64Encode rest

def base64Decode : List Nat → Except (List Nat) (List Nat)
  | [] => .ok []
  | c1 :: c2 :: c3 :: c4 :: rest =>
    match b64Index c1, b64Index c2 with
    | some v1, some v2 =>
      if c3 = eqPad then
        if c4 = eqPad ∧ rest = [] then .ok [v1 * 4 + v2 / 16]
        else .error b64CorruptErr
      else
        match b64Index c3 with
        | some v3 =>
          if c4 = eqPad then
            if rest = [] then .ok [v1 * 4 + v2 / 16, v2 % 16 * 16 + v3 / 4]
            else .error b64CorruptErr
          else
            match b64Index c4 with
            | some v4 =>
              match base64Decode rest with
              | .ok bs => .ok ((v1 * 4 + v2 / 16) :: (v2 % 16 * 16 + v3 / 4) ::
                               (v3 % 4 * 64 + v4) :: bs)
              | .error e => .error e
            | none => .error b64CorruptErr
        | none => .error b64CorruptErr
    | _, _ => .error b64CorruptErr
  | _ => .error b64CorruptErr

theorem b64Index_b64Char : ∀ i < 64, b64Index (b64Char i) = some i := by
  decide

theorem b64Char_ne_eqPad : ∀ i < 64, b64Char i ≠ eqPad := by
  decide

/-- Base64 round-trip on byte lists. -/
theorem base64Decode_encode : ∀ bs : List Nat, (∀ b ∈ bs, b < 256) →
    base64Decode (base64Encode bs) = .ok bs := by
  intro bs
  induction bs using base64Encode.induct with
  | case1 => intro _; rfl
  | case2 a =>
    intro h
    have ha : a < 256 := h a (by simp)
    have h1 : a / 4 < 64 := by omega
    have h2 : a % 4 * 16 < 64 := by omega
    simp only [base64Encode, base64Decode, b64Index_b64Char _ h1, b64Index_b64Char _ h2]
    simp [eqPad]
    omega
  | case3 a b =>
    intro h
    have ha : a < 256 := h a (by simp)
    have hb : b < 256 := h b (by simp)
    have h1 : a / 4 < 64 := by omega
    have h2 : a % 4 * 16 + b / 16 < 64 := by omega
    have h3 : b % 16 * 4 < 64 := by omega
    simp only [base64Encode, base64Decode, b64Index_b64Char _ h1, b64Index_b64Char _ h2]
    rw [if_neg (b64Char_ne_eqPad _ h3)]
    simp only [b64Index_b64Char _ h3]
    simp [eqPad]
    constructor <;> omega
  | case4 a b c rest ih =>
    intro h
    have ha : a < 256 := h a (by simp)
    have hb : b < 256 := h b (by simp)
    have hc : c < 256 := h c (by simp)
    have h1 : a / 4 < 64 := by omega
    have h2 : a % 4 * 16 + b / 16 < 64 := by omega
    have h3 : b % 16 * 4 + c / 64 < 64 := by omega
    have h4 : c % 64 < 64 := by omega
    have hrest : ∀ x ∈ rest, x < 256 := fun x hx => h x (by simp [hx])
    simp only [base64Encode, base64Decode, b64Index_b64Char _ h1, b64Index_b64Char _ h2]
    rw [if_neg (b64Char_ne_eqPad _ h3)]
    simp only [b64Index_b64Char _ h3]
    rw [if_neg (b64Char_ne_eqPad _ h4)]
    simp only [b64Index_b64Char _ h4, ih hrest]
    have e1 : a / 4 * 4 + (a % 4 * 16 + b / 16) / 16 = a := by omega
    have e2 : (a % 4 * 16 + b / 16) % 16 * 16 + (b % 16 * 4 + c / 64) / 4 = b := by omega
    have e3 : (b % 16 * 4 + c / 64) % 4 * 64 + c % 64 = c := by omega
    rw [e1, e2, e3]

/-- Base64 encoding is injective on byte lists. -/
theorem base64Encode_inj {xs ys : List Nat} (hx : ∀ b ∈ xs, b < 256)
    (hy : ∀ b ∈ ys, b < 256) (h : base64Encode xs = base64Encode ys) : xs = ys := by
  have := base64Decode_encode xs hx
  rw [h, base64Decode_encode ys hy] at this
  exact (Except.ok.injEq _ _).mp this.symm

/-! ### CFB mode (`cipher.NewCFBEncrypter` / `NewCFBDecrypter`)

The keystream is generated sixteen bytes at a time by applying the block
cipher to a shift register holding the IV and then the successive ciphertext
blocks; only the forward direction of the block cipher is used. -/

/-- A well-formed block-encryption primitive: every register encrypts to a
full 16-byte block of bytes. -/
def BlockWF (E : List Nat → List Nat) : Prop :=
  ∀ r, (E r).length = 16 ∧ ∀ b ∈ E r, b < 256

/-- Pointwise xor; the result has the length of the shorter list. -/
def xorBytes (a b : List Nat) : List Nat :=
  List.zipWith (fun x y => x ^^^ y) a b

/-- Fuel-driven worker for CFB encryption (fuel initialised to the message
length, so it never runs out). -/
def cfbEncGo (E : List Nat → List Nat) : Nat → List Nat → List Nat → List Nat
  | 0, _, _ => []
  | _, _, [] => []
  | fuel + 1, reg, x :: xs =>
    xorBytes ((x :: xs).take 16) (E reg) ++
      cfbEncGo E fuel (xorBytes ((x :: xs).take 16) (E reg)) (xs.drop 15)

/-- CFB encryption with shift register `reg` (initially the IV): each
16-byte keystream block is `E` of the previous ciphertext block. -/
def cfbEncrypt (E : List Nat → List Nat) (reg p : List Nat) : List Nat :=
  cfbEncGo E p.length reg p

/-- Fuel-driven worker for CFB decryption. -/
def cfbDecGo (E : List Nat → List Nat) : Nat → List Nat → List Nat → List Nat
  | 0, _, _ => []
  | _, _, [] => []
  | fuel + 1, reg, x :: xs =>
    xorBytes ((x :: xs).take 16) (E reg) ++
      cfbDecGo E fuel ((x :: xs).take 16) (xs.drop 15)

/-- CFB decryption with shift register `reg`. -/
def cfbDecrypt (E : List Nat → List Nat) (reg c : List Nat) : List Nat :=
  cfbDecGo E c.length reg c

theorem xorBytes_length (a b : List Nat) :
    (xorBytes a b).length = min a.length b.length := by
  simp [xorBytes]

theorem xorBytes_xorBytes (k : List Nat) : ∀ a : List Nat, a.length ≤ k.length →
    xorBytes (xorBytes a k) k = a := by
  induction k with
  | nil => intro a h; simp at h; subst h; rfl
  | cons y ys ih =>
    intro a h
    cases a with
    | nil => rfl
    | cons x xs =>
      simp only [xorBytes, List.zipWith_cons_cons]
      rw [Nat.xor_cancel_right]
      exact congrArg _ (ih xs (by simpa using h))

theorem xorBytes_lt : ∀ a b : List Nat, (∀ x ∈ a, x < 256) →
    (∀ x ∈ b, x < 256) → ∀ x ∈ xorBytes a b, x < 256 := by
  intro a
  induction a with
  | nil => intro b _ _ x hx; simp [xorBytes] at hx
  | cons y ys ih =>
    intro b ha hb x hx
    cases b with
    | nil => simp [xorBytes] at hx
    | cons z zs =>
      simp only [xorBytes, List.zipWith_cons_cons, List.mem_cons] at hx
      rcases hx with h | h
      · subst h
        have hy : y < 2 ^ 8 := by have := ha y (by simp); omega
        have hz : z < 2 ^ 8 := by have := hb z (by simp); omega
        have := Nat.xor_lt_two_pow hy hz
        omega
      · exact ih zs (fun u hu => ha u (by simp [hu]))
          (fun u hu => hb u (by simp [hu])) x h

theorem cfbEncGo_fuel (E : List Nat → List Nat) :
    ∀ f1 f2 reg (p : List Nat), p.length ≤ f1 → p.length ≤ f2 →
      cfbEncGo E f1 reg p = cfbEncGo E f2 reg p := by
  intro f1
  induction f1 with
  | zero =>
    intro f2 reg p h1 _
    have : p = [] := by cases p <;> simp_all
    subst this
    cases f2 <;> rfl
  | succ f ih =>
    intro f2 reg p h1 h2
    cases p with
    | nil => cases f2 <;> rfl
    | cons x xs =>
      cases f2 with
      | zero => simp at h2
      | succ f2' =>
        simp only [cfbEncGo]
        refine congrArg _ (ih f2' _ (xs.drop 15) ?_ ?_) <;>
          simp only [List.length_cons, List.length_drop] at h1 h2 ⊢ <;> omega

theorem cfbDecGo_fuel (E : List Nat → List Nat) :
    ∀ f1 f2 reg (c : List Nat), c.length ≤ f1 → c.length ≤ f2 →
      cfbDecGo E f1 reg c = cfbDecGo E f2 reg c := by
  intro f1
  induction f1 with
  | zero =>
    intro f2 reg c h1 _
    have : c = [] := by cases c <;> simp_all
    subst this
    cases f2 <;> rfl
  | succ f ih =>
    intro f2 reg c h1 h2
    cases c with
    | nil => cases f2 <;> rfl
    | cons x xs =>
      cases f2 with
      | zero => simp at h2
      | succ f2' =>
        simp only [cfbDecGo]
        refine congrArg _ (ih f2' _ (xs.drop 15) ?_ ?_) <;>
          simp only [List.length_cons, List.length_drop] at h1 h2 ⊢ <;> omega

theorem cfbEncrypt_nil (E : List Nat → List Nat) (reg : List Nat) :
    cfbEncrypt E reg [] = [] := rfl

theorem cfbDecrypt_nil (E : List Nat → List Nat) (reg : List Nat) :
    cfbDecrypt E reg [] = [] := rfl

theorem cfbEncrypt_ne_nil (E : List Nat → List Nat) (reg p : List Nat)
    (h : p ≠ []) :
    cfbEncrypt E reg p = xorBytes (p.take 16) (E reg) ++
      cfbEncrypt E (xorBytes (p.take 16) (E reg)) (p.drop 16) := by
  cases p with
  | nil => exact absurd rfl h
  | cons x xs =>
    show cfbEncGo E (xs.length + 1) reg (x :: xs) = _
    simp only [cfbEncGo]
    refine congrArg _ ?_
    show cfbEncGo E xs.length _ (xs.drop 15) = cfbEncGo E (xs.drop 15).length _ _
    exact cfbEncGo_fuel E xs.length (xs.drop 15).length _ (xs.drop 15)
      (by simp [List.length_drop]) (Nat.le_refl _)

theorem cfbDecrypt_ne_nil (E : List Nat → List Nat) (reg c : List Nat)
    (h : c ≠ []) :
    cfbDecrypt E reg c = xorBytes (c.take 16) (E reg) ++
      cfbDecrypt E (c.take 16) (c.drop 16) := by
  cases c with
  | nil => exact absurd rfl h
  | cons x xs =>
    show cfbDecGo E (xs.length + 1) reg (x :: xs) = _
    simp only [cfbDecGo]
    refine congrArg _ ?_
    show cfbDecGo E xs.length _ (xs.drop 15) = cfbDecGo E (xs.drop 15).length _ _
    exact cfbDecGo_fuel E xs.length (xs.drop 15).length _ (xs.drop 15)
      (by simp [List.length_drop]) (Nat.le_refl _)

theorem cfbEncrypt_length_aux (E : List Nat → List Nat)
    (hE : ∀ r, (E r).length = 16) :
    ∀ n (p : List Nat), p.length ≤ n → ∀ reg,
      (cfbEncrypt E reg p).length = p.length := by
  intro n
  induction n with
  | zero =>
    intro p hp reg
    have : p = [] := by cases p <;> simp_all
    subst this
    rfl
  | succ n ih =>
    intro p hp reg
    by_cases hnil : p = []
    · subst hnil; rfl
    · have h1 : 1 ≤ p.length := by
        cases p with
        | nil => exact absurd rfl hnil
        | cons x xs => simp
      rw [cfbEncrypt_ne_nil E reg p hnil, List.length_append, xorBytes_length,
        hE, List.length_take, ih (p.drop 16) (by simp [List.length_drop]; omega) _,
        List.length_drop]
      omega

theorem cfbEncrypt_length (E : List Nat → List Nat)
    (hE : ∀ r, (E r).length = 16) (reg p : List Nat) :
    (cfbEncrypt E reg p).length = p.length :=
  cfbEncrypt_length_aux E hE p.length p (Nat.le_refl _) reg

theorem cfbEncrypt_lt_aux (E : List Nat → List Nat)
    (hE : ∀ r, ∀ b ∈ E r, b < 256) :
    ∀ n (p : List Nat), p.length ≤ n → (∀ b ∈ p, b < 256) → ∀ reg,
      ∀ b ∈ cfbEncrypt E reg p, b < 256 := by
  intro n
  induction n with
  | zero =>
    intro p hp _ reg
    have : p = [] := by cases p <;> simp_all
    subst this
    simp [cfbEncrypt_nil]
  | succ n ih =>
    intro p hp hb reg
    by_cases hnil : p = []
    · subst hnil; simp [cfbEncrypt_nil]
    · have h1 : 1 ≤ p.length := by
        cases p with
        | nil => exact absurd rfl hnil
        | cons x xs => simp
      rw [cfbEncrypt_ne_nil E reg p hnil]
      intro b hmem
      rcases List.mem_append.mp hmem with h | h
      · exact xorBytes_lt _ _ (fun u hu => hb u (List.mem_of_mem_take hu))
          (hE reg) b h
      · exact ih (p.drop 16) (by simp [List.length_drop]; omega)
          (fun u hu => hb u (List.mem_of_mem_drop hu)) _ b h

theorem cfbEncrypt_lt (E : List Nat → List Nat)
    (hE : ∀ r, ∀ b ∈ E r, b < 256) (reg p : List Nat)
    (hb : ∀ b ∈ p, b < 256) : ∀ b ∈ cfbEncrypt E reg p, b < 256 :=
  cfbEncrypt_lt_aux E hE p.length p (Nat.le_refl _) hb reg

theorem cfbDecrypt_encrypt_aux (E : List Nat → List Nat)
    (hE : ∀ r, (E r).length = 16) :
    ∀ n (p : List Nat), p.length ≤ n → ∀ reg,
      cfbDecrypt E reg (cfbEncrypt E reg p) = p := by
  intro n
  induction n with
  | zero =>
    intro p hp reg
    have : p = [] := by cases p <;> simp_all
    subst this
    rfl
  | succ n ih =>
    intro p hp reg
    by_cases hnil : p = []
    · subst hnil; rfl
    · have hplen : 1 ≤ p.length := by
        cases p with
        | nil => exact absurd rfl hnil
        | cons x xs => simp
      rw [cfbEncrypt_ne_nil E reg p hnil]
      have hclen : (xorBytes (p.take 16) (E reg)).length = min p.length 16 := by
        simp [xorBytes_length, hE, List.length_take]
        omega
      have hxor : xorBytes (xorBytes (p.take 16) (E reg)) (E reg) = p.take 16 :=
        xorBytes_xorBytes (E reg) _ (by simp [hE, List.length_take])
      by_cases hlong : 16 ≤ p.length
      · -- full first block: the register block is exactly 16 bytes
        have hc16 : (xorBytes (p.take 16) (E reg)).length = 16 := by omega
        have hne : xorBytes (p.take 16) (E reg) ++
            cfbEncrypt E (xorBytes (p.take 16) (E reg)) (p.drop 16) ≠ [] := by
          intro hcontra
          have := congrArg List.length hcontra
          simp [hc16] at this
        rw [cfbDecrypt_ne_nil E reg _ hne]
        rw [List.take_left' hc16, List.drop_left' hc16]
        rw [hxor, ih (p.drop 16) (by simp [List.length_drop]; omega) _]
        exact List.take_append_drop 16 p
      · -- short final block
        have hdrop : p.drop 16 = [] := List.drop_eq_nil_of_le (by omega)
        rw [hdrop, cfbEncrypt_nil, List.append_nil]
        have hcne : xorBytes (p.take 16) (E reg) ≠ [] := by
          intro hcontra
          have hlen0 : (xorBytes (p.take 16) (E reg)).length = 0 := by
            rw [hcontra]; rfl
          rw [hclen] at hlen0
          omega
        rw [cfbDecrypt_ne_nil E reg _ hcne]
        have htc : (xorBytes (p.take 16) (E reg)).take 16
            = xorBytes (p.take 16) (E reg) :=
          List.take_of_length_le (by omega)
        have hdc : (xorBytes (p.take 16) (E reg)).drop 16 = [] :=
          List.drop_eq_nil_of_le (by omega)
        rw [htc, hdc, cfbDecrypt_nil, List.append_nil, hxor]
        exact List.take_of_length_le (by omega)

theorem cfbDecrypt_encrypt (E : List Nat → List Nat)
    (hE : ∀ r, (E r).length = 16) (reg p : List Nat) :
    cfbDecrypt E reg (cfbEncrypt E reg p) = p :=
  cfbDecrypt_encrypt_aux E hE p.length p (Nat.le_refl _) reg

/-! ### The string codec (`encryptAES256` / `decryptAES256`) -/

/-- The literal scheme tag `"AES256:"`. -/
def aesTag : List Nat := ascii "AES256:"

/-- The message of the `fmt.Errorf("string already encrypted")` error. -/
def alreadyEncryptedErr : List Nat := ascii "string already encrypted"

/-- The message of the `fmt.Errorf("invalid encrypted format")` error. -/
def invalidFormatErr : List Nat := ascii "invalid encrypted format"

/-- `encryptAES256`: reject a value already carrying the scheme tag,
otherwise prepend the fresh 16-byte IV to the CFB ciphertext, base64 it and
tag it.  `iv` is the IV drawn from `crypto/rand` inside the call. -/
def encryptAES256 (E : List Nat → List Nat) (iv plaintext : List Nat) :
    Except (List Nat) (List Nat) :=
  if aesTag <+: plaintext then .error alreadyEncryptedErr
  else .ok (aesTag ++ base64Encode (iv ++ cfbEncrypt E iv plaintext))

/-- Outcome of `decryptAES256`: a value, a returned error, or a Go runtime
panic (unrecovered slice-bounds violation). -/
inductive DecOut where
  | ok : List Nat → DecOut
  | err : List Nat → DecOut
  | panic : DecOut
deriving DecidableEq

/-- `decryptAES256`: check the scheme tag, strip it, base64-decode, then
split `data[:16]` / `data[16:]`.  When the decoded payload is shorter than
one cipher block the Go code's `data[:aes.BlockSize]` slice expression is
out of range and the call panics. -/
def decryptAES256 (E : List Nat → List Nat) (ciphertext : List Nat) : DecOut :=
  if aesTag <+: ciphertext then
    match base64Decode (ciphertext.drop 7) with
    | .error e => .err e
    | .ok data =>
      if data.length < 16 then .panic
      else .ok (cfbDecrypt E (data.take 16) (data.drop 16))
  else .err invalidFormatErr

theorem aesTag_length : aesTag.length = 7 := rfl

/-- Core codec round trip: decrypting a fresh envelope returns the
plaintext, for any block cipher, any 16-byte IV and any untagged byte
string. -/
theorem decryptAES256_encryptAES256 (E : List Nat → List Nat)
    (hE : BlockWF E) (iv s : List Nat) (hiv : iv.length = 16)
    (hivb : ∀ b ∈ iv, b < 256) (hs : ∀ b ∈ s, b < 256)
    (hpre : ¬ aesTag <+: s) :
    encryptAES256 E iv s = .ok (aesTag ++ base64Encode (iv ++ cfbEncrypt E iv s)) ∧
    decryptAES256 E (aesTag ++ base64Encode (iv ++ cfbEncrypt E iv s)) = .ok s := by
  have hE16 : ∀ r, (E r).length = 16 := fun r => (hE r).1
  have hEb : ∀ r, ∀ b ∈ E r, b < 256 := fun r => (hE r).2
  constructor
  · rw [encryptAES256, if_neg hpre]
  · rw [decryptAES256, if_pos (List.prefix_append aesTag _)]
    rw [show (aesTag ++ base64Encode (iv ++ cfbEncrypt E iv s)).drop 7
        = base64Encode (iv ++ cfbEncrypt E iv s) from List.drop_left' aesTag_length]
    have hbytes : ∀ b ∈ iv ++ cfbEncrypt E iv s, b < 256 := by
      intro b hb
      rcases List.mem_append.mp hb with h | h
      · exact hivb b h
      · exact cfbEncrypt_lt E hEb iv s hs b h
    rw [base64Decode_encode _ hbytes]
    have hlen : (iv ++ cfbEncrypt E iv s).length = 16 + s.length := by
      simp [List.length_append, cfbEncrypt_length E hE16, hiv]
    show (if (iv ++ cfbEncrypt E iv s).length < 16 then DecOut.panic
          else DecOut.ok (cfbDecrypt E ((iv ++ cfbEncrypt E iv s).take 16)
            ((iv ++ cfbEncrypt E iv s).drop 16))) = DecOut.ok s
    rw [if_neg (by omega)]
    rw [List.take_left' hiv, List.drop_left' hiv]
    rw [cfbDecrypt_encrypt E hE16 iv s]

/-- Distinct IVs give distinct envelopes (base64 is injective and the IV is
recoverable as the first 16 decoded bytes). -/
theorem encrypt_envelopes_distinct (E : List Nat → List Nat) (hE : BlockWF E)
    (iv1 iv2 s : List Nat) (h1 : iv1.length = 16) (h2 : iv2.length = 16)
    (h1b : ∀ b ∈ iv1, b < 256) (h2b : ∀ b ∈ iv2, b < 256)
    (hs : ∀ b ∈ s, b < 256) (hne : iv1 ≠ iv2) :
    aesTag ++ base64Encode (iv1 ++ cfbEncrypt E iv1 s) ≠
    aesTag ++ base64Encode (iv2 ++ cfbEncrypt E iv2 s) := by
  have hEb : ∀ r, ∀ b ∈ E r, b < 256 := fun r => (hE r).2
  intro hcontra
  have henc := List.append_cancel_left hcontra
  have hbytes1 : ∀ b ∈ iv1 ++ cfbEncrypt E iv1 s, b < 256 := by
    intro b hb
    rcases List.mem_append.mp hb with h | h
    · exact h1b b h
    · exact cfbEncrypt_lt E hEb iv1 s hs b h
  have hbytes2 : ∀ b ∈ iv2 ++ cfbEncrypt E iv2 s, b < 256 := by
    intro b hb
    rcases List.mem_append.mp hb with h | h
    · exact h2b b h
    · exact cfbEncrypt_lt E hEb iv2 s hs b h
  have hcat := base64Encode_inj hbytes1 hbytes2 henc
  have htake := congrArg (List.take 16) hcat
  rw [List.take_left' h1, List.take_left' h2] at htake
  exact hne htake

/-! ### Dynamic documents (`map[string]interface{}`)

A document is an association list from byte-string keys to JSON-decoded
values.  The `interface{}` payloads that matter to the engine are strings
(`DVal.str`), JSON objects (`DVal.dmap`, the only shape that satisfies the
`.(map[string]interface{})` type assertion), JSON arrays (`DVal.arr`), and
anything else (`DVal.other`). -/

inductive DVal where
  | str : List Nat → DVal
  | dmap : List (List Nat × DVal) → DVal
  | arr : List DVal → DVal
  | other : DVal

abbrev Doc := List (List Nat × DVal)

/-- Go map read `data[k]`. -/
def dlookup : Doc → List Nat → Option DVal
  | [], _ => none
  | (k', v) :: rest, k => if k' = k then some v else dlookup rest k

/-- Go map write `data[k] = v`. -/
def dset : Doc → List Nat → DVal → Doc
  | [], k, v => [(k, v)]
  | (k', v') :: rest, k, v =>
    if k' = k then (k, v) :: rest else (k', v') :: dset rest k v

/-- Go map `delete(data, k)`. -/
def ddel : Doc → List Nat → Doc
  | [], _ => []
  | (k', v') :: rest, k =>
    if k' = k then ddel rest k else (k', v') :: ddel rest k

/-- The keys of a document, in model order. -/
def dkeys (d : Doc) : List (List Nat) :=
  d.map Prod.fst

/-- A well-formed Go map: no duplicate keys. -/
def DocWF (d : Doc) : Prop :=
  (dkeys d).Nodup

/-- The `ignore_encryption` control-field name. -/
def igKey : List Nat := ascii "ignore_encryption"

/-- The fingerprint-field suffix `_hash`. -/
def hashSuf : List Nat := ascii "_hash"

/-- The `data["ignore_encryption"].(map[string]interface{})` type assertion:
only a JSON-object value satisfies it. -/
def exemptMap (d : Doc) : Option Doc :=
  match dlookup d igKey with
  | some (.dmap m) => some m
  | _ => none

/-- `_, isIgnored := ignoreConfig[field]` under `hasIgnore`. -/
def igHas (ig : Option Doc) (k : List Nat) : Bool :=
  match ig with
  | some m => (dlookup m k).isSome
  | none => false

/-- The loop of `EncryptFieldsByConfig` over the initially present keys:
skip the control field, exempted fields, `_hash`-suffixed fields and
non-string values; otherwise fingerprint and encrypt.  A codec error
returns immediately (partially updated document, control field retained). -/
def encFieldsLoop (E : List Nat → List Nat) (ivs : Nat → List Nat)
    (ig : Option Doc) : Nat → Doc → List (List Nat) → Doc × Nat × Option (List Nat)
  | ctr, cur, [] => (cur, ctr, none)
  | ctr, cur, k :: ks =>
    match dlookup cur k with
    | none => encFieldsLoop E ivs ig ctr cur ks
    | some v =>
      if k = igKey then encFieldsLoop E ivs ig ctr cur ks
      else if igHas ig k then encFieldsLoop E ivs ig ctr cur ks
      else if hashSuf <:+ k then encFieldsLoop E ivs ig ctr cur ks
      else
        match v with
        | .str s =>
          match encryptAES256 E (ivs ctr) s with
          | .error e => (cur, ctr, some e)
          | .ok w =>
            encFieldsLoop E ivs ig (ctr + 1)
              (dset (dset cur k (.str w)) (k ++ hashSuf) (.str (sha256hex s))) ks
        | _ => encFieldsLoop E ivs ig ctr cur ks

/-- `EncryptFieldsByConfig`: run the loop, then (only on success) delete the
`ignore_encryption` control field. -/
def EncryptFieldsByConfig (E : List Nat → List Nat) (ivs : Nat → List Nat)
    (ctr : Nat) (data : Doc) : Doc × Nat × Option (List Nat) :=
  match encFieldsLoop E ivs (exemptMap data) ctr data (dkeys data) with
  | (cur, c, none) => (ddel cur igKey, c, none)
  | r => r

/-- The loop of `ProcessFieldsForHash`: same skip rules (in the source's
order); an eligible string field is replaced by its fingerprint under
`<field>_hash` and deleted.  No error path exists. -/
def hashFieldsLoop (ig : Option Doc) : Doc → List (List Nat) → Doc
  | cur, [] => cur
  | cur, k :: ks =>
    match dlookup cur k with
    | none => hashFieldsLoop ig cur ks
    | some v =>
      if k = igKey then hashFieldsLoop ig cur ks
      else if hashSuf <:+ k then hashFieldsLoop ig cur ks
      else if igHas ig k then hashFieldsLoop ig cur ks
      else
        match v with
        | .str s =>
          hashFieldsLoop ig (ddel (dset cur (k ++ hashSuf) (.str (sha256hex s))) k) ks
        | _ => hashFieldsLoop ig cur ks

/-- `ProcessFieldsForHash` (filter rewrite): loop, then delete the control
field. -/
def ProcessFieldsForHash (data : Doc) : Doc :=
  ddel (hashFieldsLoop (exemptMap data) data (dkeys data)) igKey

/-- Outcome of `DecryptFieldsByConfig`: the in-place-mutated document, an
error together with the document state reached, or a panic propagated from
`decryptAES256`. -/
inductive DocOut where
  | ok : Doc → DocOut
  | err : Doc → List Nat → DocOut
  | panic : Doc → DocOut

/-- The loop of `DecryptFieldsByConfig`: decrypt scheme-tagged string
values in place (a codec error returns before the companion delete), then
delete `<field>_hash` for every visited field. -/
def decFieldsLoop (E : List Nat → List Nat) : Doc → List (List Nat) → DocOut
  | cur, [] => .ok cur
  | cur, k :: ks =>
    match dlookup cur k with
    | none => decFieldsLoop E cur ks
    | some v =>
      match v with
      | .str s =>
        if aesTag <+: s then
          match decryptAES256 E s with
          | .ok p => decFieldsLoop E (ddel (dset cur k (.str p)) (k ++ hashSuf)) ks
          | .err e => .err cur e
          | .panic => .panic cur
        else decFieldsLoop E (ddel cur (k ++ hashSuf)) ks
      | _ => decFieldsLoop E (ddel cur (k ++ hashSuf)) ks

/-- `DecryptFieldsByConfig`. -/
def DecryptFieldsByConfig (E : List Nat → List Nat) (data : Doc) : DocOut :=
  decFieldsLoop E data (dkeys data)

/-! ### Typed entities (`EncryptStructFields` / `isEmptyValue`)

An entity is the list of its fields, each a pair of the boolean
`encryption:"true"` tag and a reflected value.  The value shapes the
traversal distinguishes are: string, nested struct, nil slice, non-nil
slice of struct elements, and any other kind (`SVal.other z`, carrying the
value of `reflect.Value.IsZero`). -/

inductive SVal where
  | str : List Nat → SVal
  | strukt : List (Bool × SVal) → SVal
  | sliceNil : SVal
  | slice : List (List (Bool × SVal)) → SVal
  | other : Bool → SVal

abbrev Entity := List (Bool × SVal)

mutual

/-- `reflect.Value.IsZero`: a string is zero when empty, a slice when nil,
a struct when all its fields are zero. -/
def isZeroVal : SVal → Bool
  | .str s => s.isEmpty
  | .strukt fs => isZeroFields fs
  | .sliceNil => true
  | .slice _ => false
  | .other z => z

def isZeroFields : List (Bool × SVal) → Bool
  | [] => true
  | (_, v) :: rest => isZeroVal v && isZeroFields rest

end

/-- The source's `isEmptyValue`: strings by length, slices by nil-or-empty,
everything else (including structs) by the default `IsZero` branch. -/
def isEmptyValue : SVal → Bool
  | .str s => s.isEmpty
  | .sliceNil => true
  | .slice l => l.isEmpty
  | .strukt fs => isZeroFields fs
  | .other z => z

/-- The string the source's dead skip-branch compares codec errors against:
`"String already encrypted"`, with a capital `S`, unlike the error actually
produced by `encryptAES256`. -/
def skipCompareMsg : List Nat := ascii "String already encrypted"

mutual

/-- The field loop of `EncryptStructFields`: tagged, non-empty fields are
processed; a codec failure equal to `skipCompareMsg` would be skipped, any
other failure aborts, leaving the remaining fields untouched (the entity is
mutated in place up to that point). -/
def encFields (E : List Nat → List Nat) (ivs : Nat → List Nat) :
    Nat → Entity → Entity × Nat × Option (List Nat)
  | ctr, [] => ([], ctr, none)
  | ctr, (tag, v) :: rest =>
    if tag && !isEmptyValue v then
      match encVal E ivs ctr v with
      | (v', ctr', none) =>
        match encFields E ivs ctr' rest with
        | (rest', ctr'', e) => ((tag, v') :: rest', ctr'', e)
      | (v', ctr', some e) => ((tag, v') :: rest, ctr', some e)
    else
      match encFields E ivs ctr rest with
      | (rest', ctr', e) => ((tag, v) :: rest', ctr', e)

/-- Process one tagged, non-empty value: recurse into slices and structs,
encrypt strings, leave other kinds untouched. -/
def encVal (E : List Nat → List Nat) (ivs : Nat → List Nat) :
    Nat → SVal → SVal × Nat × Option (List Nat)
  | ctr, .slice elems =>
    match encElems E ivs ctr elems with
    | (elems', ctr', e) => (.slice elems', ctr', e)
  | ctr, .strukt fs =>
    match encFields E ivs ctr fs with
    | (fs', ctr', e) => (.strukt fs', ctr', e)
  | ctr, .str s =>
    match encryptAES256 E (ivs ctr) s with
    | .ok w => (.str w, ctr + 1, none)
    | .error e =>
      if e = skipCompareMsg then (.str s, ctr, none)
      else (.str s, ctr, some e)
  | ctr, v => (v, ctr, none)

/-- Recurse into each element of a tagged slice, aborting on the first
failure. -/
def encElems (E : List Nat → List Nat) (ivs : Nat → List Nat) :
    Nat → List Entity → List Entity × Nat × Option (List Nat)
  | ctr, [] => ([], ctr, none)
  | ctr, ent :: rest =>
    match encFields E ivs ctr ent with
    | (ent', ctr', none) =>
      match encElems E ivs ctr' rest with
      | (rest', ctr'', e) => (ent' :: rest', ctr'', e)
    | (ent', ctr', some e) => (ent' :: rest, ctr', some e)

end

/-- `EncryptStructFields` on a (pointer to a) struct entity. -/
def EncryptStructFields (E : List Nat → List Nat) (ivs : Nat → List Nat)
    (ctr : Nat) (entity : Entity) : Entity × Nat × Option (List Nat) :=
  encFields E ivs ctr entity

/-! ### Concrete instances used by witnesses -/

/-- A concrete well-formed block function for witness instantiations. -/
def constBlock : List Nat → List Nat :=
  fun _ => List.replicate 16 170

theorem constBlock_wf : BlockWF constBlock := by
  intro r
  refine ⟨by simp [constBlock], ?_⟩
  intro b hb
  simp [constBlock] at hb
  omega

/-- A concrete IV stream: the all-zero IV at every draw. -/
def zeroIVs : Nat → List Nat :=
  fun _ => List.replicate 16 0

/-- A second IV, distinct from the zero IV. -/
def onesIV : List Nat :=
  List.replicate 16 1

/-! ### Association-list lemmas for the document model -/

theorem dlookup_dset_self (d : Doc) (k : List Nat) (v : DVal) :
    dlookup (dset d k v) k = some v := by
  induction d with
  | nil => simp [dset, dlookup]
  | cons kv rest ih =>
    obtain ⟨a, b⟩ := kv
    by_cases h : a = k
    · simp [dset, h, dlookup]
    · simp [dset, h, dlookup, ih]

theorem dlookup_dset_ne (d : Doc) (k k' : List Nat) (v : DVal) (h : k' ≠ k) :
    dlookup (dset d k v) k' = dlookup d k' := by
  induction d with
  | nil =>
    simp only [dset, dlookup]
    rw [if_neg (fun hh => h hh.symm)]
  | cons kv rest ih =>
    obtain ⟨a, b⟩ := kv
    by_cases hk : a = k
    · subst hk
      rw [show dset ((a, b) :: rest) a v = (a, v) :: rest from by simp [dset]]
      simp only [dlookup]
      rw [if_neg (fun hh => h hh.symm), if_neg (fun hh => h hh.symm)]
    · simp only [dset, if_neg hk, dlookup]
      by_cases ha : a = k'
      · rw [if_pos ha, if_pos ha]
      · rw [if_neg ha, if_neg ha, ih]

theorem dlookup_ddel_self (d : Doc) (k : List Nat) :
    dlookup (ddel d k) k = none := by
  induction d with
  | nil => simp [ddel, dlookup]
  | cons kv rest ih =>
    obtain ⟨a, b⟩ := kv
    by_cases h : a = k
    · simp [ddel, h, ih]
    · simp [ddel, h, dlookup, ih]

theorem dlookup_ddel_ne (d : Doc) (k k' : List Nat) (h : k' ≠ k) :
    dlookup (ddel d k) k' = dlookup d k' := by
  induction d with
  | nil => simp [ddel, dlookup]
  | cons kv rest ih =>
    obtain ⟨a, b⟩ := kv
    by_cases hk : a = k
    · subst hk
      rw [show ddel ((a, b) :: rest) a = ddel rest a from by simp [ddel]]
      simp only [dlookup]
      rw [ih, if_neg (fun hh => h hh.symm)]
    · simp only [ddel, if_neg hk, dlookup]
      by_cases ha : a = k'
      · rw [if_pos ha, if_pos ha]
      · rw [if_neg ha, if_neg ha, ih]

/-- In a well-formed document, membership determines lookup. -/
theorem dlookup_of_mem : ∀ d : Doc, DocWF d → ∀ k v, (k, v) ∈ d →
    dlookup d k = some v := by
  intro d
  induction d with
  | nil => intro _ k v h; simp at h
  | cons kv rest ih =>
    intro hwf k v hmem
    have hwf' : DocWF rest := (List.nodup_cons.mp hwf).2
    rcases List.mem_cons.mp hmem with h | h
    · subst h; simp [dlookup]
    · have hk : kv.1 ≠ k := by
        intro hh
        have : kv.1 ∈ dkeys rest := by
          rw [hh]
          exact List.mem_map_of_mem Prod.fst h
        exact (List.nodup_cons.mp hwf).1 this
      simp [dlookup, hk, ih hwf' k v h]

theorem mem_dkeys_of_mem {d : Doc} {k : List Nat} {v : DVal} (h : (k, v) ∈ d) :
    k ∈ dkeys d :=
  List.mem_map_of_mem Prod.fst h

/-! ### Suffix facts for the `_hash` convention -/

theorem hashSuf_suffix_append (k : List Nat) : hashSuf <:+ k ++ hashSuf :=
  List.suffix_append k hashSuf

theorem append_hashSuf_inj {k1 k2 : List Nat} (h : k1 ++ hashSuf = k2 ++ hashSuf) :
    k1 = k2 := by
  have h1 := congrArg (fun l => List.take (l.length - hashSuf.length) l) h
  simpa [List.length_append, List.take_left' (rfl : k1.length = k1.length),
    List.take_left' (rfl : k2.length = k2.length)] using h1

/-- A key that is not `_hash`-suffixed is never of the form `k' ++ _hash`. -/
theorem ne_append_hashSuf_of_not_suffix {k : List Nat} (h : ¬ hashSuf <:+ k)
    (k' : List Nat) : k' ++ hashSuf ≠ k := by
  intro hh
  exact h (hh ▸ hashSuf_suffix_append k')

/-- A key never equals itself with the suffix appended. -/
theorem ne_self_append_hashSuf (k : List Nat) : k ≠ k ++ hashSuf := by
  intro h
  have hlen := congrArg List.length h
  rw [List.length_append] at hlen
  have h5 : hashSuf.length = 5 := rfl
  omega

theorem igKey_not_hash_suffixed : ¬ hashSuf <:+ igKey := by

  decide

/-! ### Invariants of the `ProcessFieldsForHash` loop -/

/-- The loop only ever writes `<eligible-field> ++ _hash` keys and deletes
eligible fields, so a `_hash`-suffixed key not named by any visited field is
untouched. -/
theorem hashFieldsLoop_preserve_hashkey (ig : Option Doc) (a : List Nat)
    (hsuf : hashSuf <:+ a) :
    ∀ ks (cur : Doc), (∀ k' ∈ ks, k' ++ hashSuf ≠ a) →
      dlookup (hashFieldsLoop ig cur ks) a = dlookup cur a := by
  intro ks
  induction ks with
  | nil => intro cur _; rfl
  | cons k ks ih =>
    intro cur hks
    have hka : ∀ k' ∈ ks, k' ++ hashSuf ≠ a := fun k' h => hks k' (by simp [h])
    cases hl : dlookup cur k with
    | none => simp only [hashFieldsLoop, hl]; exact ih cur hka
    | some v =>
      simp only [hashFieldsLoop, hl]
      by_cases h1 : k = igKey
      · rw [if_pos h1]; exact ih cur hka
      · rw [if_neg h1]
        by_cases h2 : hashSuf <:+ k
        · rw [if_pos h2]; exact ih cur hka
        · rw [if_neg h2]
          by_cases h3 : igHas ig k = true
          · rw [if_pos h3]; exact ih cur hka
          · rw [if_neg h3]
            cases v with
            | str s =>
              rw [ih _ hka]
              rw [dlookup_ddel_ne _ _ _ (fun hh => h2 (by rw [← hh]; exact hsuf)),
                dlookup_dset_ne _ _ _ _ (fun hh => hks k (by simp) hh.symm)]
            | dmap m => exact ih cur hka
            | arr l => exact ih cur hka
            | other => exact ih cur hka

/-- A key that is not `_hash`-suffixed and absent stays absent: the loop
only creates `_hash`-suffixed keys. -/
theorem hashFieldsLoop_preserve_none (ig : Option Doc) (a : List Nat)
    (hsuf : ¬ hashSuf <:+ a) :
    ∀ ks (cur : Doc), dlookup cur a = none →
      dlookup (hashFieldsLoop ig cur ks) a = none := by
  intro ks
  induction ks with
  | nil => intro cur h; exact h
  | cons k ks ih =>
    intro cur hnone
    cases hl : dlookup cur k with
    | none => simp only [hashFieldsLoop, hl]; exact ih cur hnone
    | some v =>
      simp only [hashFieldsLoop, hl]
      have hak : a ≠ k := by
        intro hh
        rw [hh, hl] at hnone
        cases hnone
      by_cases h1 : k = igKey
      · rw [if_pos h1]; exact ih cur hnone
      · rw [if_neg h1]
        by_cases h2 : hashSuf <:+ k
        · rw [if_pos h2]; exact ih cur hnone
        · rw [if_neg h2]
          by_cases h3 : igHas ig k = true
          · rw [if_pos h3]; exact ih cur hnone
          · rw [if_neg h3]
            cases v with
            | str s =>
              refine ih _ ?_
              rw [dlookup_ddel_ne _ _ _ hak,
                dlookup_dset_ne _ _ _ _ (ne_append_hashSuf_of_not_suffix hsuf k).symm]
              exact hnone
            | dmap m => exact ih cur hnone
            | arr l => exact ih cur hnone
            | other => exact ih cur hnone

/-- Processing an eligible string field replaces it by its fingerprint:
after the loop the field is gone and `<field>_hash` holds the digest. -/
theorem hashFieldsLoop_spec (ig : Option Doc) :
    ∀ ks (cur : Doc) k v, ks.Nodup → k ∈ ks →
      dlookup cur k = some (.str v) → k ≠ igKey → ¬ hashSuf <:+ k →
      igHas ig k = false →
      dlookup (hashFieldsLoop ig cur ks) (k ++ hashSuf)
        = some (.str (sha256hex v)) ∧
      dlookup (hashFieldsLoop ig cur ks) k = none := by
  intro ks
  induction ks with
  | nil => intro cur k v _ hk; simp at hk
  | cons k0 ks ih =>
    intro cur k v hnd hk hlk h1 h2 h3
    have hnd' : ks.Nodup := (List.nodup_cons.mp hnd).2
    have hk0 : k0 ∉ ks := (List.nodup_cons.mp hnd).1
    rcases List.mem_cons.mp hk with heq | hmem
    · subst heq
      simp only [hashFieldsLoop, hlk]
      rw [if_neg h1, if_neg h2, if_neg (by simp [h3])]
      have hset : dlookup (ddel (dset cur (k ++ hashSuf)
          (.str (sha256hex v))) k) (k ++ hashSuf) = some (.str (sha256hex v)) := by
        rw [dlookup_ddel_ne _ _ _ (ne_self_append_hashSuf k).symm,
          dlookup_dset_self]
      have hdel : dlookup (ddel (dset cur (k ++ hashSuf)
          (.str (sha256hex v))) k) k = none := dlookup_ddel_self _ _
      constructor
      · rw [hashFieldsLoop_preserve_hashkey ig (k ++ hashSuf)
          (hashSuf_suffix_append k) ks _ ?_, hset]
        intro k' hk' hcontra
        exact hk0 (append_hashSuf_inj hcontra ▸ hk')
      · exact hashFieldsLoop_preserve_none ig k h2 ks _ hdel
    · have hkne : k ≠ k0 := fun hh => hk0 (hh ▸ hmem)
      cases hl : dlookup cur k0 with
      | none => simp only [hashFieldsLoop, hl]; exact ih cur k v hnd' hmem hlk h1 h2 h3
      | some v0 =>
        simp only [hashFieldsLoop, hl]
        by_cases g1 : k0 = igKey
        · rw [if_pos g1]; exact ih cur k v hnd' hmem hlk h1 h2 h3
        · rw [if_neg g1]
          by_cases g2 : hashSuf <:+ k0
          · rw [if_pos g2]; exact ih cur k v hnd' hmem hlk h1 h2 h3
          · rw [if_neg g2]
            by_cases g3 : igHas ig k0 = true
            · rw [if_pos g3]; exact ih cur k v hnd' hmem hlk h1 h2 h3
            · rw [if_neg g3]
              cases v0 with
              | str s0 =>
                refine ih _ k v hnd' hmem ?_ h1 h2 h3
                rw [dlookup_ddel_ne _ _ _ hkne,
                  dlookup_dset_ne _ _ _ _ (ne_append_hashSuf_of_not_suffix h2 k0).symm]
                exact hlk
              | dmap m => exact ih cur k v hnd' hmem hlk h1 h2 h3
              | arr l => exact ih cur k v hnd' hmem hlk h1 h2 h3
              | other => exact ih cur k v hnd' hmem hlk h1 h2 h3

/-! ### Invariants of the `EncryptFieldsByConfig` loop -/

/-- Eligibility on the dynamic write path: not the control field, not
exempted, not `_hash`-suffixed.  (String-typed values of such fields are
fingerprinted and encrypted.) -/
def Elig (ig : Option Doc) (k : List Nat) : Prop :=
  k ≠ igKey ∧ igHas ig k = false ∧ ¬ hashSuf <:+ k

/-- The loop writes only at eligible visited fields and their `_hash`
companions, so any key not so targeted keeps its binding — whether or not
the traversal later aborts. -/
theorem encFieldsLoop_frame (E : List Nat → List Nat) (ivs : Nat → List Nat)
    (ig : Option Doc) (a : List Nat) :
    ∀ ks ctr (cur : Doc),
      (∀ k' ∈ ks, Elig ig k' → k' ≠ a ∧ k' ++ hashSuf ≠ a) →
      dlookup (encFieldsLoop E ivs ig ctr cur ks).1 a = dlookup cur a := by
  intro ks
  induction ks with
  | nil => intro ctr cur _; rfl
  | cons k ks ih =>
    intro ctr cur hks
    have hka : ∀ k' ∈ ks, Elig ig k' → k' ≠ a ∧ k' ++ hashSuf ≠ a :=
      fun k' h => hks k' (by simp [h])
    cases hl : dlookup cur k with
    | none => simp only [encFieldsLoop, hl]; exact ih ctr cur hka
    | some v =>
      simp only [encFieldsLoop, hl]
      by_cases h1 : k = igKey
      · rw [if_pos h1]; exact ih ctr cur hka
      · rw [if_neg h1]
        by_cases h2 : igHas ig k = true
        · rw [if_pos h2]; exact ih ctr cur hka
        · rw [if_neg h2]
          by_cases h3 : hashSuf <:+ k
          · rw [if_pos h3]; exact ih ctr cur hka
          · rw [if_neg h3]
            cases v with
            | str s =>
              have helig : Elig ig k :=
                ⟨h1, by simpa using h2, h3⟩
              obtain ⟨hne1, hne2⟩ := hks k (by simp) helig
              show dlookup
                (match encryptAES256 E (ivs ctr) s with
                 | Except.error e => (cur, ctr, some e)
                 | Except.ok w => encFieldsLoop E ivs ig (ctr + 1)
                     (dset (dset cur k (DVal.str w)) (k ++ hashSuf)
                       (DVal.str (sha256hex s))) ks).1 a = dlookup cur a
              cases he : encryptAES256 E (ivs ctr) s with
              | error e => rfl
              | ok w =>
                show dlookup (encFieldsLoop E ivs ig (ctr + 1)
                  (dset (dset cur k (DVal.str w)) (k ++ hashSuf)
                    (DVal.str (sha256hex s))) ks).1 a = dlookup cur a
                rw [ih _ _ hka, dlookup_dset_ne _ _ _ _ (fun hh => hne2 hh.symm),
                  dlookup_dset_ne _ _ _ _ (fun hh => hne1 hh.symm)]
            | dmap m => exact ih ctr cur hka
            | arr l => exact ih ctr cur hka
            | other => exact ih ctr cur hka

/-- If no eligible string value already carries the scheme tag, the loop
completes without error. -/
theorem encFieldsLoop_no_error (E : List Nat → List Nat) (ivs : Nat → List Nat)
    (ig : Option Doc) :
    ∀ ks ctr (cur : Doc), ks.Nodup →
      (∀ k ∈ ks, ∀ s, Elig ig k → dlookup cur k = some (.str s) →
        ¬ aesTag <+: s) →
      (encFieldsLoop E ivs ig ctr cur ks).2.2 = none := by
  intro ks
  induction ks with
  | nil => intro ctr cur _ _; rfl
  | cons k ks ih =>
    intro ctr cur hnd hsafe
    have hnd' : ks.Nodup := (List.nodup_cons.mp hnd).2
    have hk0 : k ∉ ks := (List.nodup_cons.mp hnd).1
    have hsafe' : ∀ k' ∈ ks, ∀ s, Elig ig k' → dlookup cur k' = some (.str s) →
        ¬ aesTag <+: s := fun k' h => hsafe k' (by simp [h])
    cases hl : dlookup cur k with
    | none => simp only [encFieldsLoop, hl]; exact ih ctr cur hnd' hsafe'
    | some v =>
      simp only [encFieldsLoop, hl]
      by_cases h1 : k = igKey
      · rw [if_pos h1]; exact ih ctr cur hnd' hsafe'
      · rw [if_neg h1]
        by_cases h2 : igHas ig k = true
        · rw [if_pos h2]; exact ih ctr cur hnd' hsafe'
        · rw [if_neg h2]
          by_cases h3 : hashSuf <:+ k
          · rw [if_pos h3]; exact ih ctr cur hnd' hsafe'
          · rw [if_neg h3]
            cases v with
            | str s =>
              have helig : Elig ig k := ⟨h1, by simpa using h2, h3⟩
              have hpre : ¬ aesTag <+: s := hsafe k (by simp) s helig hl
              show (match encryptAES256 E (ivs ctr) s with
                 | Except.error e => (cur, ctr, some e)
                 | Except.ok w => encFieldsLoop E ivs ig (ctr + 1)
                     (dset (dset cur k (DVal.str w)) (k ++ hashSuf)
                       (DVal.str (sha256hex s))) ks).2.2 = none
              rw [show encryptAES256 E (ivs ctr) s
                  = .ok (aesTag ++ base64Encode (ivs ctr ++
                      cfbEncrypt E (ivs ctr) s)) from by
                rw [encryptAES256, if_neg hpre]]
              show (encFieldsLoop E ivs ig (ctr + 1)
                  (dset (dset cur k (DVal.str (aesTag ++ base64Encode (ivs ctr ++
                      cfbEncrypt E (ivs ctr) s)))) (k ++ hashSuf)
                    (DVal.str (sha256hex s))) ks).2.2 = none
              refine ih _ _ hnd' ?_
              intro k' hk' s' helig' hlk'
              refine hsafe' k' hk' s' helig' ?_
              rw [← hlk', dlookup_dset_ne _ _ _ _
                  (ne_append_hashSuf_of_not_suffix helig'.2.2 k).symm,
                dlookup_dset_ne _ _ _ _ (fun hh => hk0 (by rw [← hh]; exact hk'))]
            | dmap m => exact ih ctr cur hnd' hsafe'
            | arr l => exact ih ctr cur hnd' hsafe'
            | other => exact ih ctr cur hnd' hsafe'

/-- Processing an eligible, untagged string field stores its envelope in
place and its fingerprint under `<field>_hash` (provided the whole loop
runs without abort, which the safety hypothesis ensures). -/
theorem encFieldsLoop_processed (E : List Nat → List Nat) (ivs : Nat → List Nat)
    (ig : Option Doc) :
    ∀ ks ctr (cur : Doc) k v, ks.Nodup → k ∈ ks →
      dlookup cur k = some (.str v) → Elig ig k → ¬ aesTag <+: v →
      (∀ k' ∈ ks, ∀ s, Elig ig k' → dlookup cur k' = some (.str s) →
        ¬ aesTag <+: s) →
      ∃ m, dlookup (encFieldsLoop E ivs ig ctr cur ks).1 k
          = some (.str (aesTag ++ base64Encode (ivs m ++ cfbEncrypt E (ivs m) v))) ∧
        dlookup (encFieldsLoop E ivs ig ctr cur ks).1 (k ++ hashSuf)
          = some (.str (sha256hex v)) := by
  intro ks
  induction ks with
  | nil => intro ctr cur k v _ hk; simp at hk
  | cons k0 ks ih =>
    intro ctr cur k v hnd hk hlk helig hpre hsafe
    obtain ⟨e1, e2, e3⟩ := helig
    have hnd' : ks.Nodup := (List.nodup_cons.mp hnd).2
    have hk00 : k0 ∉ ks := (List.nodup_cons.mp hnd).1
    have hsafe' : ∀ k' ∈ ks, ∀ s, Elig ig k' → dlookup cur k' = some (.str s) →
        ¬ aesTag <+: s := fun k' h => hsafe k' (by simp [h])
    rcases List.mem_cons.mp hk with heq | hmem
    · subst heq
      simp only [encFieldsLoop, hlk]
      rw [if_neg e1, if_neg (by simp [e2]), if_neg e3]
      show (fun r => ∃ m, dlookup r.1 k
            = some (.str (aesTag ++ base64Encode (ivs m ++ cfbEncrypt E (ivs m) v))) ∧
          dlookup r.1 (k ++ hashSuf) = some (.str (sha256hex v)))
        (match encryptAES256 E (ivs ctr) v with
         | Except.error e => (cur, ctr, some e)
         | Except.ok w => encFieldsLoop E ivs ig (ctr + 1)
             (dset (dset cur k (DVal.str w)) (k ++ hashSuf)
               (DVal.str (sha256hex v))) ks)
      rw [show encryptAES256 E (ivs ctr) v
          = .ok (aesTag ++ base64Encode (ivs ctr ++ cfbEncrypt E (ivs ctr) v))
          from by rw [encryptAES256, if_neg hpre]]
      refine ⟨ctr, ?_, ?_⟩
      · rw [encFieldsLoop_frame E ivs ig k ks _ _ ?cond1]
        · rw [dlookup_dset_ne _ _ _ _ (ne_self_append_hashSuf k),
            dlookup_dset_self]
        case cond1 =>
          intro k' hk' helig'
          refine ⟨fun hh => hk00 (hh ▸ hk'), ?_⟩
          exact ne_append_hashSuf_of_not_suffix e3 k'
      · rw [encFieldsLoop_frame E ivs ig (k ++ hashSuf) ks _ _ ?cond2]
        · rw [dlookup_dset_self]
        case cond2 =>
          intro k' hk' helig'
          constructor
          · intro hh
            exact helig'.2.2 (by rw [hh]; exact hashSuf_suffix_append k)
          · intro hh
            exact hk00 (by rw [← append_hashSuf_inj hh]; exact hk')
    · have hkne : k ≠ k0 := fun hh => hk00 (by rw [← hh]; exact hmem)
      cases hl : dlookup cur k0 with
      | none =>
        simp only [encFieldsLoop, hl]
        exact ih ctr cur k v hnd' hmem hlk ⟨e1, e2, e3⟩ hpre hsafe'
      | some v0 =>
        simp only [encFieldsLoop, hl]
        by_cases g1 : k0 = igKey
        · rw [if_pos g1]; exact ih ctr cur k v hnd' hmem hlk ⟨e1, e2, e3⟩ hpre hsafe'
        · rw [if_neg g1]
          by_cases g2 : igHas ig k0 = true
          · rw [if_pos g2]; exact ih ctr cur k v hnd' hmem hlk ⟨e1, e2, e3⟩ hpre hsafe'
          · rw [if_neg g2]
            by_cases g3 : hashSuf <:+ k0
            · rw [if_pos g3]; exact ih ctr cur k v hnd' hmem hlk ⟨e1, e2, e3⟩ hpre hsafe'
            · rw [if_neg g3]
              cases v0 with
              | str s0 =>
                have helig0 : Elig ig k0 := ⟨g1, by simpa using g2, g3⟩
                have hpre0 : ¬ aesTag <+: s0 := hsafe k0 (by simp) s0 helig0 hl
                show (fun r => ∃ m, dlookup r.1 k
                      = some (.str (aesTag ++ base64Encode (ivs m ++
                          cfbEncrypt E (ivs m) v))) ∧
                    dlookup r.1 (k ++ hashSuf) = some (.str (sha256hex v)))
                  (match encryptAES256 E (ivs ctr) s0 with
                   | Except.error e => (cur, ctr, some e)
                   | Except.ok w => encFieldsLoop E ivs ig (ctr + 1)
                       (dset (dset cur k0 (DVal.str w)) (k0 ++ hashSuf)
                         (DVal.str (sha256hex s0))) ks)
                rw [show encryptAES256 E (ivs ctr) s0
                    = .ok (aesTag ++ base64Encode (ivs ctr ++
                        cfbEncrypt E (ivs ctr) s0))
                    from by rw [encryptAES256, if_neg hpre0]]
                refine ih _ _ k v hnd' hmem ?_ ⟨e1, e2, e3⟩ hpre ?_
                · rw [dlookup_dset_ne _ _ _ _
                    (ne_append_hashSuf_of_not_suffix e3 k0).symm,
                    dlookup_dset_ne _ _ _ _ hkne]
                  exact hlk
                · intro k' hk' s' helig' hlk'
                  refine hsafe' k' hk' s' helig' ?_
                  rw [← hlk', dlookup_dset_ne _ _ _ _
                      (ne_append_hashSuf_of_not_suffix helig'.2.2 k0).symm,
                    dlookup_dset_ne _ _ _ _ (fun hh => hk00 (by rw [← hh]; exact hk'))]
              | dmap m => exact ih ctr cur k v hnd' hmem hlk ⟨e1, e2, e3⟩ hpre hsafe'
              | arr l => exact ih ctr cur k v hnd' hmem hlk ⟨e1, e2, e3⟩ hpre hsafe'
              | other => exact ih ctr cur k v hnd' hmem hlk ⟨e1, e2, e3⟩ hpre hsafe'

/-! ### Invariants of the `DecryptFieldsByConfig` loop -/

/-- The document state carried by any outcome (Go mutates in place, so the
map has a definite state also on error or panic). -/
def DocOut.doc : DocOut → Doc
  | .ok d => d
  | .err d _ => d
  | .panic d => d

theorem mem_dkeys_of_dlookup : ∀ (d : Doc) (k : List Nat) (v : DVal),
    dlookup d k = some v → k ∈ dkeys d := by
  intro d
  induction d with
  | nil => intro k v h; cases h
  | cons kv rest ih =>
    intro k v h
    obtain ⟨a, b⟩ := kv
    by_cases ha : a = k
    · simp [dkeys, ha]
    · simp only [dlookup, if_neg ha] at h
      simp [dkeys]
      right
      have := ih k v h
      simpa [dkeys] using this

/-- An absent key stays absent through decryption: the loop writes only at
keys it found present. -/
theorem decFieldsLoop_preserve_none (E : List Nat → List Nat) (a : List Nat) :
    ∀ ks (cur : Doc), dlookup cur a = none →
      dlookup (decFieldsLoop E cur ks).doc a = none := by
  intro ks
  induction ks with
  | nil => intro cur h; exact h
  | cons k ks ih =>
    intro cur hnone
    cases hl : dlookup cur k with
    | none => simp only [decFieldsLoop, hl]; exact ih cur hnone
    | some v =>
      have hak : a ≠ k := by
        intro hh
        rw [hh, hl] at hnone
        cases hnone
      have hdel : ∀ d : Doc, dlookup d a = none →
          dlookup (ddel d (k ++ hashSuf)) a = none := by
        intro d hd
        by_cases hax : a = k ++ hashSuf
        · subst hax; exact dlookup_ddel_self _ _
        · rw [dlookup_ddel_ne _ _ _ hax]; exact hd
      simp only [decFieldsLoop, hl]
      cases v with
      | str s =>
        show dlookup (if aesTag <+: s then
            (match decryptAES256 E s with
             | DecOut.ok p => decFieldsLoop E (ddel (dset cur k (DVal.str p)) (k ++ hashSuf)) ks
             | DecOut.err e => DocOut.err cur e
             | DecOut.panic => DocOut.panic cur)
          else decFieldsLoop E (ddel cur (k ++ hashSuf)) ks).doc a = none
        by_cases htag : aesTag <+: s
        · rw [if_pos htag]
          cases hd : decryptAES256 E s with
          | ok p =>
            refine ih _ (hdel _ ?_)
            rw [dlookup_dset_ne _ _ _ _ hak]
            exact hnone
          | err e => exact hnone
          | panic => exact hnone
        · rw [if_neg htag]
          exact ih _ (hdel _ hnone)
      | dmap m => exact ih _ (hdel _ hnone)
      | arr l => exact ih _ (hdel _ hnone)
      | other => exact ih _ (hdel _ hnone)

/-- A key not in the remaining visit list either keeps its value or is
deleted (as some visited field's `_hash` companion); it is never rewritten. -/
theorem decFieldsLoop_stable (E : List Nat → List Nat) (k : List Nat) (w : DVal) :
    ∀ ks (cur : Doc), k ∉ ks →
      (dlookup cur k = some w ∨ dlookup cur k = none) →
      dlookup (decFieldsLoop E cur ks).doc k = some w ∨
        dlookup (decFieldsLoop E cur ks).doc k = none := by
  intro ks
  induction ks with
  | nil => intro cur _ h; exact h
  | cons k0 ks ih =>
    intro cur hk hcur
    have hkk0 : k ≠ k0 := fun hh => hk (by simp [hh])
    have hk' : k ∉ ks := fun hh => hk (by simp [hh])
    have hdel : ∀ d : Doc, (dlookup d k = some w ∨ dlookup d k = none) →
        dlookup (ddel d (k0 ++ hashSuf)) k = some w ∨
          dlookup (ddel d (k0 ++ hashSuf)) k = none := by
      intro d hd
      by_cases hax : k = k0 ++ hashSuf
      · subst hax; right; exact dlookup_ddel_self _ _
      · rw [dlookup_ddel_ne _ _ _ hax]; exact hd
    cases hl : dlookup cur k0 with
    | none => simp only [decFieldsLoop, hl]; exact ih cur hk' hcur
    | some v =>
      simp only [decFieldsLoop, hl]
      cases v with
      | str s =>
        show (fun r => dlookup r.doc k = some w ∨ dlookup r.doc k = none)
          (if aesTag <+: s then
            (match decryptAES256 E s with
             | DecOut.ok p => decFieldsLoop E (ddel (dset cur k0 (DVal.str p)) (k0 ++ hashSuf)) ks
             | DecOut.err e => DocOut.err cur e
             | DecOut.panic => DocOut.panic cur)
          else decFieldsLoop E (ddel cur (k0 ++ hashSuf)) ks)
        by_cases htag : aesTag <+: s
        · rw [if_pos htag]
          cases hd : decryptAES256 E s with
          | ok p =>
            refine ih _ hk' (hdel _ ?_)
            rcases hcur with h | h
            · left; rw [dlookup_dset_ne _ _ _ _ hkk0]; exact h
            · right; rw [dlookup_dset_ne _ _ _ _ hkk0]; exact h
          | err e => exact hcur
          | panic => exact hcur
        · rw [if_neg htag]
          exact ih _ hk' (hdel _ hcur)
      | dmap m => exact ih _ hk' (hdel _ hcur)
      | arr l => exact ih _ hk' (hdel _ hcur)
      | other => exact ih _ hk' (hdel _ hcur)

/-- On a successful run, the `_hash` companion of every field that is still
present in the result has been deleted (the field, being present at the
end, was present when visited, and its companion delete executed). -/
theorem decFieldsLoop_hash_gone (E : List Nat → List Nat) :
    ∀ ks (cur d : Doc), decFieldsLoop E cur ks = .ok d →
      ∀ f ∈ ks, dlookup d f ≠ none → dlookup d (f ++ hashSuf) = none := by
  intro ks
  induction ks with
  | nil => intro cur d _ f hf; simp at hf
  | cons k0 ks ih =>
    intro cur d hok f hf hfalive
    cases hl : dlookup cur k0 with
    | none =>
      simp only [decFieldsLoop, hl] at hok
      rcases List.mem_cons.mp hf with heq | hmem
      · subst heq
        have := decFieldsLoop_preserve_none E f ks cur hl
        rw [hok] at this
        exact absurd this hfalive
      · exact ih cur d hok f hmem hfalive
    | some v =>
      simp only [decFieldsLoop, hl] at hok
      cases v with
      | str s =>
        have hok' : (if aesTag <+: s then
            (match decryptAES256 E s with
             | DecOut.ok p => decFieldsLoop E
                 (ddel (dset cur k0 (DVal.str p)) (k0 ++ hashSuf)) ks
             | DecOut.err e => DocOut.err cur e
             | DecOut.panic => DocOut.panic cur)
          else decFieldsLoop E (ddel cur (k0 ++ hashSuf)) ks) = .ok d := hok
        by_cases htag : aesTag <+: s
        · rw [if_pos htag] at hok'
          cases hd : decryptAES256 E s with
          | ok p =>
            rw [hd] at hok'
            have hok2 : decFieldsLoop E
                (ddel (dset cur k0 (DVal.str p)) (k0 ++ hashSuf)) ks = .ok d := hok'
            rcases List.mem_cons.mp hf with heq | hmem
            · subst heq
              have h0 : dlookup (ddel (dset cur f (DVal.str p)) (f ++ hashSuf))
                  (f ++ hashSuf) = none := dlookup_ddel_self _ _
              have := decFieldsLoop_preserve_none E (f ++ hashSuf) ks _ h0
              rw [hok2] at this
              exact this
            · exact ih _ d hok2 f hmem hfalive
          | err e => rw [hd] at hok'; simp at hok'
          | panic => rw [hd] at hok'; simp at hok'
        · rw [if_neg htag] at hok'
          rcases List.mem_cons.mp hf with heq | hmem
          · subst heq
            have h0 : dlookup (ddel cur (f ++ hashSuf)) (f ++ hashSuf) = none :=
              dlookup_ddel_self _ _
            have := decFieldsLoop_preserve_none E (f ++ hashSuf) ks _ h0
            rw [hok'] at this
            exact this
          · exact ih _ d hok' f hmem hfalive
      | dmap m =>
        have hok' : decFieldsLoop E (ddel cur (k0 ++ hashSuf)) ks = .ok d := hok
        rcases List.mem_cons.mp hf with heq | hmem
        · subst heq
          have h0 : dlookup (ddel cur (f ++ hashSuf)) (f ++ hashSuf) = none :=
            dlookup_ddel_self _ _
          have := decFieldsLoop_preserve_none E (f ++ hashSuf) ks _ h0
          rw [hok'] at this
          exact this
        · exact ih _ d hok' f hmem hfalive
      | arr l =>
        have hok' : decFieldsLoop E (ddel cur (k0 ++ hashSuf)) ks = .ok d := hok
        rcases List.mem_cons.mp hf with heq | hmem
        · subst heq
          have h0 : dlookup (ddel cur (f ++ hashSuf)) (f ++ hashSuf) = none :=
            dlookup_ddel_self _ _
          have := decFieldsLoop_preserve_none E (f ++ hashSuf) ks _ h0
          rw [hok'] at this
          exact this
        · exact ih _ d hok' f hmem hfalive
      | other =>
        have hok' : decFieldsLoop E (ddel cur (k0 ++ hashSuf)) ks = .ok d := hok
        rcases List.mem_cons.mp hf with heq | hmem
        · subst heq
          have h0 : dlookup (ddel cur (f ++ hashSuf)) (f ++ hashSuf) = none :=
            dlookup_ddel_self _ _
          have := decFieldsLoop_preserve_none E (f ++ hashSuf) ks _ h0
          rw [hok'] at this
          exact this
        · exact ih _ d hok' f hmem hfalive

/-- A scheme-tagged string field that survives a successful run has been
decrypted in place (its value at visit time is its original value); a field
that does not survive was deleted as some other field's `_hash` companion. -/
theorem decFieldsLoop_decrypted (E : List Nat → List Nat) :
    ∀ ks (cur d : Doc) k v, ks.Nodup → k ∈ ks →
      dlookup cur k = some (.str v) → aesTag <+: v →
      decFieldsLoop E cur ks = .ok d →
      dlookup d k = none ∨
        ∃ p, decryptAES256 E v = .ok p ∧ dlookup d k = some (.str p) := by
  intro ks
  induction ks with
  | nil => intro cur d k v _ hk; simp at hk
  | cons k0 ks ih =>
    intro cur d k v hnd hk hlk htagv hok
    have hnd' : ks.Nodup := (List.nodup_cons.mp hnd).2
    have hk00 : k0 ∉ ks := (List.nodup_cons.mp hnd).1
    rcases List.mem_cons.mp hk with heq | hmem
    · subst heq
      simp only [decFieldsLoop, hlk] at hok
      have hok' : (if aesTag <+: v then
          (match decryptAES256 E v with
           | DecOut.ok p => decFieldsLoop E
               (ddel (dset cur k (DVal.str p)) (k ++ hashSuf)) ks
           | DecOut.err e => DocOut.err cur e
           | DecOut.panic => DocOut.panic cur)
        else decFieldsLoop E (ddel cur (k ++ hashSuf)) ks) = .ok d := hok
      rw [if_pos htagv] at hok'
      cases hd : decryptAES256 E v with
      | ok p =>
        rw [hd] at hok'
        have hok2 : decFieldsLoop E
            (ddel (dset cur k (DVal.str p)) (k ++ hashSuf)) ks = .ok d := hok'
        have hcur2 : dlookup (ddel (dset cur k (DVal.str p)) (k ++ hashSuf)) k
            = some (DVal.str p) := by
          rw [dlookup_ddel_ne _ _ _ (ne_self_append_hashSuf k), dlookup_dset_self]
        have hstable := decFieldsLoop_stable E k (DVal.str p) ks _ hk00 (Or.inl hcur2)
        rw [hok2] at hstable
        rcases hstable with h | h
        · exact Or.inr ⟨p, rfl, h⟩
        · exact Or.inl h
      | err e => rw [hd] at hok'; simp at hok'
      | panic => rw [hd] at hok'; simp at hok'
    · have hkne : k ≠ k0 := fun hh => hk00 (by rw [← hh]; exact hmem)
      cases hl : dlookup cur k0 with
      | none =>
        simp only [decFieldsLoop, hl] at hok
        exact ih cur d k v hnd' hmem hlk htagv hok
      | some v0 =>
        simp only [decFieldsLoop, hl] at hok
        have hcase : ∀ cur1 : Doc, decFieldsLoop E (ddel cur1 (k0 ++ hashSuf)) ks = .ok d →
            dlookup cur1 k = some (DVal.str v) →
            dlookup d k = none ∨
              ∃ p, decryptAES256 E v = .ok p ∧ dlookup d k = some (.str p) := by
          intro cur1 hok2 hlk1
          by_cases hkh : k = k0 ++ hashSuf
          · subst hkh
            have h0 : dlookup (ddel cur1 (k0 ++ hashSuf)) (k0 ++ hashSuf) = none :=
              dlookup_ddel_self _ _
            have := decFieldsLoop_preserve_none E (k0 ++ hashSuf) ks _ h0
            rw [hok2] at this
            exact Or.inl this
          · refine ih _ d k v hnd' hmem ?_ htagv hok2
            rw [dlookup_ddel_ne _ _ _ hkh]
            exact hlk1
        cases v0 with
        | str s0 =>
          have hok' : (if aesTag <+: s0 then
              (match decryptAES256 E s0 with
               | DecOut.ok p => decFieldsLoop E
                   (ddel (dset cur k0 (DVal.str p)) (k0 ++ hashSuf)) ks
               | DecOut.err e => DocOut.err cur e
               | DecOut.panic => DocOut.panic cur)
            else decFieldsLoop E (ddel cur (k0 ++ hashSuf)) ks) = .ok d := hok
          by_cases htag0 : aesTag <+: s0
          · rw [if_pos htag0] at hok'
            cases hd0 : decryptAES256 E s0 with
            | ok p0 =>
              rw [hd0] at hok'
              have hok2 : decFieldsLoop E
                  (ddel (dset cur k0 (DVal.str p0)) (k0 ++ hashSuf)) ks = .ok d := hok'
              refine hcase _ hok2 ?_
              rw [dlookup_dset_ne _ _ _ _ hkne]
              exact hlk
            | err e => rw [hd0] at hok'; simp at hok'
            | panic => rw [hd0] at hok'; simp at hok'
          · rw [if_neg htag0] at hok'
            exact hcase cur hok' hlk
        | dmap m => exact hcase cur hok hlk
        | arr l => exact hcase cur hok hlk
        | other => exact hcase cur hok hlk

/-! ### The empty-value skip on the typed path -/

/-- A tagged, empty field is never touched by `encFields`: whatever happens
to the other fields (including an abort), its slot is returned unchanged. -/
theorem encFields_empty_skip (E : List Nat → List Nat) (ivs : Nat → List Nat) :
    ∀ (flds : Entity) (ctr i : Nat) (tag : Bool) (v : SVal),
      flds[i]? = some (tag, v) → tag = true →
      isEmptyValue v = true →
      ((encFields E ivs ctr flds).1)[i]? = some (tag, v) := by
  intro flds
  induction flds with
  | nil => intro ctr i tag v h; simp at h
  | cons f rest ih =>
    intro ctr i tag v h htag hempty
    obtain ⟨tag0, v0⟩ := f
    cases i with
    | zero =>
      simp only [List.getElem?_cons_zero, Option.some.injEq] at h
      obtain ⟨h1, h2⟩ := Prod.mk.injEq .. ▸ h
      subst h1
      subst h2
      subst htag
      simp only [encFields, hempty]
      rw [if_neg (by simp)]
      rcases hr : encFields E ivs ctr rest with ⟨rest', ctr'', e⟩
      simp
    | succ i =>
      have h' : rest[i]? = some (tag, v) := by simpa using h
      by_cases hc : (tag0 && !isEmptyValue v0) = true
      · simp only [encFields, if_pos hc]
        rcases hv : encVal E ivs ctr v0 with ⟨v0', ctr', e0⟩
        cases e0 with
        | none =>
          simpa using ih ctr' i tag v h' htag hempty
        | some e0 =>
          simpa using h'
      · simp only [encFields, if_neg hc]
        simpa using ih ctr i tag v h' htag hempty

/-! ### Digest shape lemmas -/

theorem mem_of_dlookup : ∀ (d : Doc) (k : List Nat) (v : DVal),
    dlookup d k = some v → (k, v) ∈ d := by
  intro d
  induction d with
  | nil => intro k v h; cases h
  | cons kv rest ih =>
    intro k v h
    obtain ⟨a, b⟩ := kv
    by_cases ha : a = k
    · subst ha
      rw [show dlookup ((a, b) :: rest) a = some b from by simp [dlookup]] at h
      rw [← Option.some.inj h]
      exact List.mem_cons_self _ _
    · simp only [dlookup, if_neg ha] at h
      exact List.mem_cons_of_mem _ (ih k v h)

theorem flatten_map_toBytesBE_length (n : Nat) :
    ∀ l : List Nat, ((l.map (toBytesBE n)).flatten).length = l.length * n := by
  intro l
  induction l with
  | nil => simp
  | cons x xs ih =>
    simp [toBytesBE_length, ih]
    ring

theorem shaBlock_length (P : ShaP) (hs ws16 : List Nat) :
    (shaBlock P hs ws16).length = 8 := by
  simp [shaBlock]

set_option maxRecDepth 40000 in
theorem shaH0_length (P : ShaP) : (shaH0 P).length = 8 := by
  have h : (firstPrimes 8).length = 8 := by decide
  simp [shaH0, h]

theorem shaDigest_length (P : ShaP) (m : List Nat) :
    (shaDigest P m).length = 8 * (P.wbits / 8) := by
  rw [shaDigest]
  rw [flatten_map_toBytesBE_length]
  have hfold : ∀ (blocks : List (List Nat)) (hs : List Nat), hs.length = 8 →
      (blocks.foldl (fun hs blk =>
        shaBlock P hs ((chunks (P.wbits / 8) blk).map beWord)) hs).length = 8 := by
    intro blocks
    induction blocks with
    | nil => intro hs h; exact h
    | cons b bs ih => intro hs h; exact ih _ (shaBlock_length P hs _)
  rw [hfold _ _ (shaH0_length P)]

theorem shaDigest_lt (P : ShaP) (m : List Nat) :
    ∀ b ∈ shaDigest P m, b < 256 := by
  intro b hb
  rw [shaDigest] at hb
  rcases List.mem_flatten.mp hb with ⟨l, hl, hbl⟩
  rcases List.mem_map.mp hl with ⟨x, _, rfl⟩
  exact toBytesBE_lt _ _ b hbl

theorem sha512_length (m : List Nat) : (sha512 m).length = 64 :=
  shaDigest_length sha512P m

instance decidableDocWF (d : Doc) : Decidable (DocWF d) :=
  inferInstanceAs (Decidable (dkeys d).Nodup)

instance decidableElig (ig : Option Doc) (k : List Nat) : Decidable (Elig ig k) :=
  inferInstanceAs (Decidable (k ≠ igKey ∧ igHas ig k = false ∧ ¬ hashSuf <:+ k))

/-! ### Claim theorems -/

/-- C1: the claim says an `AlreadyEncrypted` codec failure during typed
encryption is skipped and the traversal succeeds.  The code compares the
error message against `"String already encrypted"` (capital `S`) while the
codec produces `"string already encrypted"`, so the skip branch is dead:
on an entity whose single tagged string field already carries the scheme
tag, `EncryptStructFields` aborts with the already-encrypted error and the
field is returned unchanged.  The second conjunct exhibits the mismatch
that kills the skip. -/
theorem claimC1_already_encrypted_aborts :
    EncryptStructFields constBlock zeroIVs 0 [(true, SVal.str (ascii "AES256:abc"))]
      = ([(true, SVal.str (ascii "AES256:abc"))], 0, some alreadyEncryptedErr) ∧
    alreadyEncryptedErr ≠ skipCompareMsg := by
  exact ⟨rfl, by decide⟩

set_option maxRecDepth 1000000 in
/-- C2 (counterexample): the claim says key-material initialization fails
fatally on an absent or empty passphrase.  The `init` function has no such
check: on the empty passphrase it derives and installs this concrete
32-byte key (the SHA-512 digest of the empty string, truncated). -/
theorem claimC2_counterexample :
    initKey (ascii "") = [207, 131, 225, 53, 126, 239, 184, 189, 241, 84, 40, 80,
      214, 109, 128, 7, 214, 32, 228, 5, 11, 87, 21, 220, 131, 244, 169, 33,
      211, 108, 233, 206] := by
  rfl

/-- C2 (amended): key-material initialization never fails; for every
passphrase, including the empty one, it unconditionally derives the
32-byte key `sha512(passphrase)[:32]`. -/
theorem claimC2_amended_key_derivation (passphrase : List Nat) :
    initKey passphrase = (sha512 passphrase).take 32 ∧
    (initKey passphrase).length = 32 ∧
    ∀ b ∈ initKey passphrase, b < 256 := by
  refine ⟨rfl, ?_, ?_⟩
  · rw [initKey, List.length_take, sha512_length]
    omega
  · intro b hb
    exact shaDigest_lt sha512P passphrase b (List.mem_of_mem_take hb)

/-- C3 (counterexample): the round trip fails for the non-empty plaintext
`"AES256:x"`, which `encryptAES256` rejects with the already-encrypted
guard, so `decryptAES256 (encryptAES256 s)` cannot return `s` for all
non-empty `s`. -/
theorem claimC3_counterexample :
    ascii "AES256:x" ≠ [] ∧
    encryptAES256 constBlock (zeroIVs 0) (ascii "AES256:x")
      = .error alreadyEncryptedErr := by
  exact ⟨by decide, rfl⟩

/-- C3 (amended): for every non-empty plaintext byte string that does not
already carry the scheme tag, and any fresh 16-byte IV drawn inside the
call, decryption of the produced envelope returns the plaintext. -/
theorem claimC3_roundtrip (E : List Nat → List Nat) (iv s : List Nat)
    (hE : BlockWF E) (hiv : iv.length = 16) (hivb : ∀ b ∈ iv, b < 256)
    (hs : ∀ b ∈ s, b < 256) (hne : s ≠ []) (hpre : ¬ aesTag <+: s) :
    ∃ w, encryptAES256 E iv s = .ok w ∧ decryptAES256 E w = .ok s :=
  ⟨_, (decryptAES256_encryptAES256 E hE iv s hiv hivb hs hpre).1,
    (decryptAES256_encryptAES256 E hE iv s hiv hivb hs hpre).2⟩

/-- C3 (witness): the round trip at a concrete instance. -/
theorem claimC3_roundtrip_witness :
    ascii "hello" ≠ [] ∧
    ∃ w, encryptAES256 constBlock (zeroIVs 0) (ascii "hello") = .ok w ∧
      decryptAES256 constBlock w = .ok (ascii "hello") :=
  ⟨by decide, claimC3_roundtrip constBlock (zeroIVs 0) (ascii "hello")
    constBlock_wf (by decide) (by decide) (by decide) (by decide) (by decide)⟩

/-- C4: the claim says `decryptAES256` always returns a result or an error,
in particular an error on a short decoded payload.  The code indexes
`data[:16]` without a length check, so a tagged payload that base64-decodes
to fewer than 16 bytes panics (slice bounds out of range): `"AES256:"`
(empty payload) and `"AES256:QQ=="` (one byte) panic, while the
missing-tag and malformed-base64 cases do return errors as claimed. -/
theorem claimC4_short_payload_panics :
    decryptAES256 constBlock (ascii "AES256:") = .panic ∧
    decryptAES256 constBlock (ascii "AES256:QQ==") = .panic ∧
    decryptAES256 constBlock (ascii "hello") = .err invalidFormatErr ∧
    decryptAES256 constBlock (ascii "AES256:!!!!") = .err b64CorruptErr := by
  exact ⟨rfl, rfl, rfl, rfl⟩

/-- C8: envelope format and non-determinism.  For an untagged plaintext the
envelope is exactly `"AES256:" ++ base64(iv ++ cfb-ciphertext)`; two calls
that draw distinct IVs produce different envelopes; both decrypt back to
the plaintext; and a tagged plaintext is rejected with the
already-encrypted error. -/
theorem claimC8_envelope_format (E : List Nat → List Nat) (iv1 iv2 s t : List Nat)
    (hE : BlockWF E) (h1 : iv1.length = 16) (h2 : iv2.length = 16)
    (h1b : ∀ b ∈ iv1, b < 256) (h2b : ∀ b ∈ iv2, b < 256)
    (hs : ∀ b ∈ s, b < 256) (hpre : ¬ aesTag <+: s) (hiv : iv1 ≠ iv2)
    (ht : aesTag <+: t) :
    encryptAES256 E iv1 s = .ok (aesTag ++ base64Encode (iv1 ++ cfbEncrypt E iv1 s)) ∧
    encryptAES256 E iv2 s = .ok (aesTag ++ base64Encode (iv2 ++ cfbEncrypt E iv2 s)) ∧
    aesTag ++ base64Encode (iv1 ++ cfbEncrypt E iv1 s)
      ≠ aesTag ++ base64Encode (iv2 ++ cfbEncrypt E iv2 s) ∧
    decryptAES256 E (aesTag ++ base64Encode (iv1 ++ cfbEncrypt E iv1 s)) = .ok s ∧
    decryptAES256 E (aesTag ++ base64Encode (iv2 ++ cfbEncrypt E iv2 s)) = .ok s ∧
    encryptAES256 E iv1 t = .error alreadyEncryptedErr :=
  ⟨(decryptAES256_encryptAES256 E hE iv1 s h1 h1b hs hpre).1,
    (decryptAES256_encryptAES256 E hE iv2 s h2 h2b hs hpre).1,
    encrypt_envelopes_distinct E hE iv1 iv2 s h1 h2 h1b h2b hs hiv,
    (decryptAES256_encryptAES256 E hE iv1 s h1 h1b hs hpre).2,
    (decryptAES256_encryptAES256 E hE iv2 s h2 h2b hs hpre).2,
    by rw [encryptAES256, if_pos ht]⟩

/-- C8 (witness): at concrete distinct IVs and a concrete plaintext. -/
theorem claimC8_envelope_format_witness :
    zeroIVs 0 ≠ onesIV ∧
    (aesTag <+: ascii "AES256:x") ∧
    encryptAES256 constBlock (zeroIVs 0) (ascii "hi")
      = .ok (aesTag ++ base64Encode (zeroIVs 0 ++ cfbEncrypt constBlock (zeroIVs 0) (ascii "hi"))) ∧
    encryptAES256 constBlock onesIV (ascii "hi")
      = .ok (aesTag ++ base64Encode (onesIV ++ cfbEncrypt constBlock onesIV (ascii "hi"))) ∧
    aesTag ++ base64Encode (zeroIVs 0 ++ cfbEncrypt constBlock (zeroIVs 0) (ascii "hi"))
      ≠ aesTag ++ base64Encode (onesIV ++ cfbEncrypt constBlock onesIV (ascii "hi")) ∧
    decryptAES256 constBlock (aesTag ++ base64Encode (zeroIVs 0 ++
      cfbEncrypt constBlock (zeroIVs 0) (ascii "hi"))) = .ok (ascii "hi") ∧
    decryptAES256 constBlock (aesTag ++ base64Encode (onesIV ++
      cfbEncrypt constBlock onesIV (ascii "hi"))) = .ok (ascii "hi") ∧
    encryptAES256 constBlock (zeroIVs 0) (ascii "AES256:x")
      = .error alreadyEncryptedErr := by
  have h := claimC8_envelope_format constBlock (zeroIVs 0) onesIV (ascii "hi")
    (ascii "AES256:x") constBlock_wf (by decide) (by decide) (by decide)
    (by decide) (by decide) (by decide) (by decide) (by decide)
  exact ⟨by decide, by decide, h.1, h.2.1, h.2.2.1, h.2.2.2.1, h.2.2.2.2.1,
    h.2.2.2.2.2⟩

/-- C9: empty-value skip on the typed path — every annotated field whose
value is empty or zero-valued (empty string, nil or empty slice, zero
struct) is returned unchanged by `EncryptStructFields`, at its original
position. -/
theorem claimC9_empty_value_skip (E : List Nat → List Nat) (ivs : Nat → List Nat)
    (ctr i : Nat) (flds : Entity) (tag : Bool) (v : SVal)
    (h : flds[i]? = some (tag, v)) (htag : tag = true)
    (hempty : isEmptyValue v = true) :
    ((EncryptStructFields E ivs ctr flds).1)[i]? = some (tag, v) :=
  encFields_empty_skip E ivs flds ctr i tag v h htag hempty

/-- C9 (witness): a marked field holding the empty string stays the empty
string (while a sibling non-empty marked field is encrypted). -/
theorem claimC9_empty_value_skip_witness :
    ([(true, SVal.str []), (true, SVal.str (ascii "x"))] : Entity)[0]?
      = some (true, SVal.str []) ∧
    isEmptyValue (SVal.str []) = true ∧
    ((EncryptStructFields constBlock zeroIVs 0
      [(true, SVal.str []), (true, SVal.str (ascii "x"))]).1)[0]?
      = some (true, SVal.str []) :=
  ⟨rfl, rfl, claimC9_empty_value_skip constBlock zeroIVs 0 0
    [(true, SVal.str []), (true, SVal.str (ascii "x"))] true (SVal.str [])
    rfl rfl rfl⟩

/-- C6: filter rewrite correctness — every eligible string-valued field of
a filter document is replaced by its fingerprint: `<field>_hash` holds the
lowercase hex SHA-256 of the plaintext and the plaintext key is deleted. -/
theorem claimC6_filter_rewrite (data : Doc) (k v : List Nat)
    (hwf : DocWF data) (hmem : (k, DVal.str v) ∈ data) (h1 : k ≠ igKey)
    (h2 : ¬ hashSuf <:+ k) (h3 : igHas (exemptMap data) k = false) :
    dlookup (ProcessFieldsForHash data) (k ++ hashSuf)
      = some (.str (sha256hex v)) ∧
    dlookup (ProcessFieldsForHash data) k = none := by
  have hlk := dlookup_of_mem data hwf k _ hmem
  obtain ⟨hA, hB⟩ := hashFieldsLoop_spec (exemptMap data) (dkeys data) data k v
    hwf (mem_dkeys_of_mem hmem) hlk h1 h2 h3
  constructor
  · rw [ProcessFieldsForHash, dlookup_ddel_ne _ _ _
      (ne_append_hashSuf_of_not_suffix igKey_not_hash_suffixed k)]
    exact hA
  · rw [ProcessFieldsForHash, dlookup_ddel_ne _ _ _ h1]
    exact hB

/-- The one-field filter of the spec's example. -/
def emailFilter : Doc :=
  [(ascii "email", DVal.str (ascii "a@b.com"))]

/-- C6 (witness): `{"email": "a@b.com"}` becomes
`{"email_hash": fingerprint("a@b.com")}` with no `email` key left. -/
theorem claimC6_filter_rewrite_witness :
    DocWF emailFilter ∧
    dlookup (ProcessFieldsForHash emailFilter) (ascii "email" ++ hashSuf)
      = some (.str (sha256hex (ascii "a@b.com"))) ∧
    dlookup (ProcessFieldsForHash emailFilter) (ascii "email") = none := by
  have h := claimC6_filter_rewrite emailFilter (ascii "email") (ascii "a@b.com")
    (by decide) (List.mem_cons_self _ _) (by decide) (by decide) rfl
  exact ⟨by decide, h.1, h.2⟩

/-- C7 (counterexample): the claim promises that for every stored document
no `<field>_hash` companion remains after `DecryptFieldsByConfig`.  On a
document whose scheme-tagged value has a malformed base64 payload the
traversal aborts with the codec error before any companion delete runs,
and `a_hash` (the companion of field `a`) is still present. -/
theorem claimC7_counterexample :
    DecryptFieldsByConfig constBlock
      [(ascii "a", DVal.str (ascii "AES256:!!")), (ascii "a_hash", DVal.str (ascii "h"))]
      = .err [(ascii "a", DVal.str (ascii "AES256:!!")),
              (ascii "a_hash", DVal.str (ascii "h"))] b64CorruptErr ∧
    dlookup [(ascii "a", DVal.str (ascii "AES256:!!")),
             (ascii "a_hash", DVal.str (ascii "h"))] (ascii "a" ++ hashSuf)
      = some (DVal.str (ascii "h")) := by
  exact ⟨rfl, rfl⟩

/-- C7 (amended): on every document on which `DecryptFieldsByConfig`
returns successfully, no field of the returned document has a
`<field>_hash` companion left, and every scheme-tagged string field that
survives has been decrypted in place (a tagged field can only disappear by
being some other field's companion). -/
theorem claimC7_decrypt_strips (E : List Nat → List Nat) (data d : Doc)
    (hwf : DocWF data) (hok : DecryptFieldsByConfig E data = .ok d) :
    (∀ f, dlookup d f ≠ none → dlookup d (f ++ hashSuf) = none) ∧
    (∀ k v, (k, DVal.str v) ∈ data → aesTag <+: v →
      dlookup d k = none ∨
        ∃ p, decryptAES256 E v = .ok p ∧ dlookup d k = some (.str p)) := by
  constructor
  · intro f halive
    have hfdata : dlookup data f ≠ none := by
      intro hnone
      have hkeep := decFieldsLoop_preserve_none E f (dkeys data) data hnone
      rw [show decFieldsLoop E data (dkeys data) = DocOut.ok d from hok] at hkeep
      exact halive hkeep
    cases hl : dlookup data f with
    | none => exact absurd hl hfdata
    | some v =>
      exact decFieldsLoop_hash_gone E (dkeys data) data d hok f
        (mem_dkeys_of_dlookup data f v hl) halive
  · intro k v hmem htag
    exact decFieldsLoop_decrypted E (dkeys data) data d k v hwf
      (mem_dkeys_of_mem hmem) (dlookup_of_mem data hwf k _ hmem) htag hok

/-- A stored document: a fresh envelope of `"plain"` (zero IV, the witness
block cipher) beside its fingerprint field. -/
def storedEmailDoc : Doc :=
  [(ascii "email", DVal.str (ascii "AES256:AAAAAAAAAAAAAAAAAAAAANrGy8PE")),
   (ascii "email_hash", DVal.str (ascii "digest"))]

/-- C7 (witness): decrypting the stored document yields
`{"email": "plain"}`; the fingerprint key is stripped and the envelope is
decrypted in place. -/
theorem claimC7_decrypt_strips_witness :
    DocWF storedEmailDoc ∧
    DecryptFieldsByConfig constBlock storedEmailDoc
      = .ok [(ascii "email", DVal.str (ascii "plain"))] ∧
    ((∀ f, dlookup [(ascii "email", DVal.str (ascii "plain"))] f ≠ none →
      dlookup [(ascii "email", DVal.str (ascii "plain"))] (f ++ hashSuf) = none) ∧
    (∀ k v, (k, DVal.str v) ∈ storedEmailDoc → aesTag <+: v →
      dlookup [(ascii "email", DVal.str (ascii "plain"))] k = none ∨
        ∃ p, decryptAES256 constBlock v = .ok p ∧
          dlookup [(ascii "email", DVal.str (ascii "plain"))] k = some (.str p))) :=
  ⟨by decide, rfl,
    claimC7_decrypt_strips constBlock storedEmailDoc _ (by decide) rfl⟩

/-- The spec's exemption example with the `ignore_encryption` entry in its
literal JSON-list shape, as the claim states it (`ignore_encryption:
["note"]`). -/
def listIgnoreDoc : Doc :=
  [(ascii "note", DVal.str (ascii "plain")),
   (ascii "bio", DVal.str (ascii "secret")),
   (igKey, DVal.arr [DVal.str (ascii "note")])]

/-- C5 (counterexample): with the exemption list in the claim's own shape
(a JSON array of names), the `.(map[string]interface{})` type assertion
fails, the exemption is silently ignored, and the supposedly exempt field
`note` is both encrypted (its value becomes an envelope, not `"plain"`)
and fingerprinted (`note_hash` is added). -/
theorem claimC5_counterexample :
    dlookup (EncryptFieldsByConfig constBlock zeroIVs 0 listIgnoreDoc).1
      (ascii "note")
      = some (DVal.str (ascii "AES256:AAAAAAAAAAAAAAAAAAAAANrGy8PE")) ∧
    ascii "AES256:AAAAAAAAAAAAAAAAAAAAANrGy8PE" ≠ ascii "plain" ∧
    (dlookup (EncryptFieldsByConfig constBlock zeroIVs 0 listIgnoreDoc).1
      (ascii "note" ++ hashSuf)).isSome = true := by
  exact ⟨rfl, by decide, rfl⟩

/-- C5 (amended): exemption honored when the `ignore_encryption` entry is a
JSON object keyed by the exempt field names (the only shape the code's type
assertion accepts), on documents whose eligible string values are not
already scheme-tagged: the traversal succeeds, exempt (non-`_hash`,
non-control) fields keep their plaintext value and gain no fingerprint,
every eligible string field is replaced by an envelope with its
`<field>_hash` fingerprint added, and the control field is removed. -/
theorem claimC5_exemption_honored (E : List Nat → List Nat)
    (ivs : Nat → List Nat) (ctr : Nat) (data igm : Doc)
    (hwf : DocWF data) (hig : exemptMap data = some igm)
    (hsafe : ∀ k v, (k, DVal.str v) ∈ data → Elig (some igm) k →
      ¬ aesTag <+: v) :
    (EncryptFieldsByConfig E ivs ctr data).2.2 = none ∧
    dlookup (EncryptFieldsByConfig E ivs ctr data).1 igKey = none ∧
    (∀ k v, (k, v) ∈ data → k ≠ igKey → igHas (some igm) k = true →
      ¬ hashSuf <:+ k →
      dlookup (EncryptFieldsByConfig E ivs ctr data).1 k = some v ∧
      (dlookup data (k ++ hashSuf) = none →
        dlookup (EncryptFieldsByConfig E ivs ctr data).1 (k ++ hashSuf) = none)) ∧
    (∀ k v, (k, DVal.str v) ∈ data → Elig (some igm) k →
      ∃ m w, encryptAES256 E (ivs m) v = .ok w ∧
        dlookup (EncryptFieldsByConfig E ivs ctr data).1 k = some (.str w) ∧
        dlookup (EncryptFieldsByConfig E ivs ctr data).1 (k ++ hashSuf)
          = some (.str (sha256hex v))) := by
  have hsafe' : ∀ k' ∈ dkeys data, ∀ s, Elig (some igm) k' →
      dlookup data k' = some (.str s) → ¬ aesTag <+: s := by
    intro k' _ s he hl
    exact hsafe k' s (mem_of_dlookup data k' _ hl) he
  have hne := encFieldsLoop_no_error E ivs (some igm) (dkeys data) ctr data hwf hsafe'
  rcases hr : encFieldsLoop E ivs (some igm) ctr data (dkeys data) with ⟨d1, c1, e1⟩
  rw [hr] at hne
  have he1 : e1 = none := hne
  subst he1
  have hres : EncryptFieldsByConfig E ivs ctr data = (ddel d1 igKey, c1, none) := by
    rw [EncryptFieldsByConfig, hig, hr]
  refine ⟨by rw [hres], ?_, ?_, ?_⟩
  · rw [hres]
    exact dlookup_ddel_self _ _
  · intro k v hmemk hk1 hk2 hk3
    have hkne : ∀ k' ∈ dkeys data, Elig (some igm) k' → k' ≠ k := by
      intro k' _ helig' hh
      have hfalse := helig'.2.1
      rw [hh, hk2] at hfalse
      cases hfalse
    constructor
    · have hframe := encFieldsLoop_frame E ivs (some igm) k (dkeys data) ctr data
        (fun k' hk' helig' => ⟨hkne k' hk' helig',
          ne_append_hashSuf_of_not_suffix hk3 k'⟩)
      rw [hr] at hframe
      rw [hres]
      show dlookup (ddel d1 igKey) k = some v
      rw [dlookup_ddel_ne _ _ _ hk1]
      rw [show dlookup d1 k = dlookup data k from hframe,
        dlookup_of_mem data hwf k v hmemk]
    · intro hnone
      have hframe := encFieldsLoop_frame E ivs (some igm) (k ++ hashSuf)
        (dkeys data) ctr data
        (fun k' hk' helig' =>
          ⟨(ne_append_hashSuf_of_not_suffix helig'.2.2 k).symm,
           fun hh => hkne k' hk' helig' (append_hashSuf_inj hh)⟩)
      rw [hr] at hframe
      rw [hres]
      show dlookup (ddel d1 igKey) (k ++ hashSuf) = none
      rw [dlookup_ddel_ne _ _ _
        (ne_append_hashSuf_of_not_suffix igKey_not_hash_suffixed k)]
      rw [show dlookup d1 (k ++ hashSuf) = dlookup data (k ++ hashSuf) from hframe]
      exact hnone
  · intro k v hmemk helig
    have hpre : ¬ aesTag <+: v := hsafe k v hmemk helig
    obtain ⟨m, hm1, hm2⟩ := encFieldsLoop_processed E ivs (some igm) (dkeys data)
      ctr data k v hwf (mem_dkeys_of_mem hmemk)
      (dlookup_of_mem data hwf k _ hmemk) helig hpre hsafe'
    rw [hr] at hm1 hm2
    refine ⟨m, aesTag ++ base64Encode (ivs m ++ cfbEncrypt E (ivs m) v),
      by rw [encryptAES256, if_neg hpre], ?_, ?_⟩
    · rw [hres]
      show dlookup (ddel d1 igKey) k
        = some (.str (aesTag ++ base64Encode (ivs m ++ cfbEncrypt E (ivs m) v)))
      rw [dlookup_ddel_ne _ _ _ helig.1]
      exact hm1
    · rw [hres]
      show dlookup (ddel d1 igKey) (k ++ hashSuf) = some (.str (sha256hex v))
      rw [dlookup_ddel_ne _ _ _
        (ne_append_hashSuf_of_not_suffix igKey_not_hash_suffixed k)]
      exact hm2

/-- The exemption example with the object-shaped control entry the code
actually honors. -/
def mapIgnoreDoc : Doc :=
  [(ascii "note", DVal.str (ascii "plain")),
   (ascii "bio", DVal.str (ascii "secret")),
   (igKey, DVal.dmap [(ascii "note", DVal.other)])]

/-- C5 (witness): on the object-shaped exemption, `note` stays plaintext
with no fingerprint, `bio` gains its fingerprint, and the control field is
gone. -/
theorem claimC5_exemption_honored_witness :
    DocWF mapIgnoreDoc ∧
    exemptMap mapIgnoreDoc = some [(ascii "note", DVal.other)] ∧
    dlookup (EncryptFieldsByConfig constBlock zeroIVs 0 mapIgnoreDoc).1
      (ascii "note") = some (DVal.str (ascii "plain")) ∧
    dlookup (EncryptFieldsByConfig constBlock zeroIVs 0 mapIgnoreDoc).1
      (ascii "note" ++ hashSuf) = none ∧
    dlookup (EncryptFieldsByConfig constBlock zeroIVs 0 mapIgnoreDoc).1
      (ascii "bio" ++ hashSuf) = some (.str (sha256hex (ascii "secret"))) ∧
    dlookup (EncryptFieldsByConfig constBlock zeroIVs 0 mapIgnoreDoc).1
      igKey = none := by
  have hsafe : ∀ k v, (k, DVal.str v) ∈ mapIgnoreDoc →
      Elig (some [(ascii "note", DVal.other)]) k → ¬ aesTag <+: v := by
    intro k v hmem helig
    simp only [mapIgnoreDoc, List.mem_cons, List.not_mem_nil, or_false,
      Prod.mk.injEq] at hmem
    rcases hmem with ⟨hk, hv⟩ | ⟨hk, hv⟩ | ⟨hk, hv⟩
    · subst hk
      exact absurd helig.2.1 (by decide)
    · have hv' : v = ascii "secret" := by
        injection hv
      subst hv'
      decide
    · cases hv
  have h := claimC5_exemption_honored constBlock zeroIVs 0 mapIgnoreDoc
    [(ascii "note", DVal.other)] (by decide) rfl hsafe
  obtain ⟨hnoerr, hig, hexempt, hproc⟩ := h
  obtain ⟨hkeep, hnohash⟩ := hexempt (ascii "note") (DVal.str (ascii "plain"))
    (List.mem_cons_self _ _) (by decide) rfl (by decide)
  obtain ⟨m, w, henc, hval, hhash⟩ := hproc (ascii "bio") (ascii "secret")
    (List.mem_cons_of_mem _ (List.mem_cons_self _ _)) ⟨by decide, rfl, by decide⟩
  exact ⟨by decide, rfl, hkeep, hnohash rfl, hhash, hig⟩

set_option maxRecDepth 1000000 in
/-- C10: no empty-value skip on the dynamic path — an eligible field whose
value is the empty string is still processed: it is overwritten with an
envelope of the empty string (tag plus base64 of the bare IV) and a
companion `<field>_hash` holding the well-known SHA-256 digest of the
empty string is added. -/
theorem claimC10_empty_string_processed (E : List Nat → List Nat)
    (ivs : Nat → List Nat) (ctr : Nat) (data : Doc) (k : List Nat)
    (hwf : DocWF data) (hmem : (k, DVal.str []) ∈ data)
    (helig : Elig (exemptMap data) k)
    (hsafe : ∀ k' v, (k', DVal.str v) ∈ data → Elig (exemptMap data) k' →
      ¬ aesTag <+: v) :
    (EncryptFieldsByConfig E ivs ctr data).2.2 = none ∧
    ∃ m, dlookup (EncryptFieldsByConfig E ivs ctr data).1 k
        = some (.str (aesTag ++ base64Encode (ivs m))) ∧
      dlookup (EncryptFieldsByConfig E ivs ctr data).1 (k ++ hashSuf)
        = some (.str (ascii
          "e3b0c44298fc1c149afbf4c8996fb92427ae41e4649b934ca495991b7852b855")) := by
  have hsafe' : ∀ k' ∈ dkeys data, ∀ s, Elig (exemptMap data) k' →
      dlookup data k' = some (.str s) → ¬ aesTag <+: s := by
    intro k' _ s he hl
    exact hsafe k' s (mem_of_dlookup data k' _ hl) he
  have hne := encFieldsLoop_no_error E ivs (exemptMap data) (dkeys data) ctr data
    hwf hsafe'
  obtain ⟨m, hm1, hm2⟩ := encFieldsLoop_processed E ivs (exemptMap data)
    (dkeys data) ctr data k [] hwf (mem_dkeys_of_mem hmem)
    (dlookup_of_mem data hwf k _ hmem) helig (by decide) hsafe'
  rcases hr : encFieldsLoop E ivs (exemptMap data) ctr data (dkeys data)
    with ⟨d1, c1, e1⟩
  rw [hr] at hne hm1 hm2
  have he1 : e1 = none := hne
  subst he1
  have hres : EncryptFieldsByConfig E ivs ctr data = (ddel d1 igKey, c1, none) := by
    rw [EncryptFieldsByConfig, hr]
  refine ⟨by rw [hres], m, ?_, ?_⟩
  · rw [hres]
    show dlookup (ddel d1 igKey) k = some (.str (aesTag ++ base64Encode (ivs m)))
    rw [dlookup_ddel_ne _ _ _ helig.1]
    rw [show ivs m ++ cfbEncrypt E (ivs m) [] = ivs m from by
      rw [cfbEncrypt_nil, List.append_nil]] at hm1
    exact hm1
  · rw [hres]
    show dlookup (ddel d1 igKey) (k ++ hashSuf) = some (.str (ascii
      "e3b0c44298fc1c149afbf4c8996fb92427ae41e4649b934ca495991b7852b855"))
    rw [dlookup_ddel_ne _ _ _
      (ne_append_hashSuf_of_not_suffix igKey_not_hash_suffixed k)]
    rw [show sha256hex ([] : List Nat) = ascii
      "e3b0c44298fc1c149afbf4c8996fb92427ae41e4649b934ca495991b7852b855"
      from by decide] at hm2
    exact hm2

/-- A document holding one eligible field with the empty string. -/
def emptyBioDoc : Doc :=
  [(ascii "bio", DVal.str [])]

/-- C10 (witness): the empty-valued field is processed, not skipped. -/
theorem claimC10_empty_string_processed_witness :
    DocWF emptyBioDoc ∧
    Elig (exemptMap emptyBioDoc) (ascii "bio") ∧
    ((EncryptFieldsByConfig constBlock zeroIVs 0 emptyBioDoc).2.2 = none ∧
    ∃ m, dlookup (EncryptFieldsByConfig constBlock zeroIVs 0 emptyBioDoc).1
        (ascii "bio") = some (.str (aesTag ++ base64Encode (zeroIVs m))) ∧
      dlookup (EncryptFieldsByConfig constBlock zeroIVs 0 emptyBioDoc).1
        (ascii "bio" ++ hashSuf) = some (.str (ascii
          "e3b0c44298fc1c149afbf4c8996fb92427ae41e4649b934ca495991b7852b855"))) := by
  have hsafe : ∀ k' v, (k', DVal.str v) ∈ emptyBioDoc →
      Elig (exemptMap emptyBioDoc) k' → ¬ aesTag <+: v := by
    intro k' v hmem _
    simp only [emptyBioDoc, List.mem_cons, List.not_mem_nil, or_false,
      Prod.mk.injEq] at hmem
    obtain ⟨hk, hv⟩ := hmem
    have hv' : v = [] := by injection hv
    subst hv'
    decide
  exact ⟨by decide, ⟨by decide, rfl, by decide⟩,
    claimC10_empty_string_processed constBlock zeroIVs 0 emptyBioDoc (ascii "bio")
      (by decide) (List.mem_cons_self _ _) ⟨by decide, rfl, by decide⟩ hsafe⟩
